import Mathlib

/-!
Verification of the Go rule engine: a shallow embedding of the board
representation (two bits per cell), the union-find based connected-component
grouping, the liberty analysis, and the move/capture protocol, together with
theorems checking the specification's claims against this embedding.

Positions are modelled as raw row-major indices `p` with `x = p % N`,
`y = p / N`, following `pos.rs`.  The board is a flat bit list with two bits
per cell (bit `2p` = occupied, bit `2p+1` = is-black), following `board.rs`.
-/

set_option maxHeartbeats 2000000

namespace GoGame

/-- Player colour, from `player.rs`. -/
inductive Player
  | Black
  | White
deriving DecidableEq

/-- The other player, from `Player::other_player`. -/
def Player.other_player : Player → Player
  | .Black => .White
  | .White => .Black

/-- Cell value: `None` is empty, otherwise the occupying player. -/
abbrev Cell := Option Player

/-- Error type of `place_stone` / `set_if_empty`, from `error.rs`. -/
inductive PlaceStoneError
  | CellOccupied
deriving DecidableEq

instance {ε α : Type} [DecidableEq ε] [DecidableEq α] : DecidableEq (Except ε α) := fun a b =>
  match a, b with
  | .ok x, .ok y => if h : x = y then .isTrue (by rw [h]) else .isFalse (by simp [h])
  | .error x, .error y => if h : x = y then .isTrue (by rw [h]) else .isFalse (by simp [h])
  | .ok _, .error _ => .isFalse (by simp)
  | .error _, .ok _ => .isFalse (by simp)

/-! Positions, from `pos.rs`: a position is a row-major index. -/

/-- The x coordinate of index `p` (`Pos::x`). -/
def posX (N p : Nat) : Nat := p % N

/-- The y coordinate of index `p` (`Pos::y`). -/
def posY (N p : Nat) : Nat := p / N

/-- Left neighbour (`Pos::left`). -/
def posLeft (N p : Nat) : Option Nat :=
  if 0 < posX N p then some (p - 1) else none

/-- Right neighbour (`Pos::right`). -/
def posRight (N p : Nat) : Option Nat :=
  if posX N p < N - 1 then some (p + 1) else none

/-- Upper neighbour (`Pos::up`). -/
def posUp (N p : Nat) : Option Nat :=
  if 0 < posY N p then some (p - N) else none

/-- Lower neighbour (`Pos::down`). -/
def posDown (N p : Nat) : Option Nat :=
  if posY N p < N - 1 then some (p + N) else none

/-- Conversion from `(x, y)` to the index, from `Pos::from_xy`. -/
def posFromXY (N x y : Nat) : Nat := y * N + x

/-! The board, from `board.rs`.  `cells` is the bit array: bit `2p` says
whether cell `p` is occupied, bit `2p+1` whether it is black. -/

structure Board (N : Nat) where
  cells : List Bool
  hlen : cells.length = 2 * (N * N)

instance {N : Nat} : DecidableEq (Board N) := fun a b =>
  if h : a.cells = b.cells then .isTrue (by cases a; cases b; simp_all)
  else .isFalse (fun hab => h (by rw [hab]))

/-- Empty board (`Board::new`). -/
def Board.new (N : Nat) : Board N :=
  ⟨List.replicate (2 * (N * N)) false, by simp⟩

/-- The second bit written by `Board::_set`: true only for a black stone. -/
def blackBit : Cell → Bool
  | none => false
  | some .White => false
  | some .Black => true

/-- Raw two-bit write at bit index `index`, from `Board::_set`. -/
def Board.setBits {N : Nat} (b : Board N) (index : Nat) (value : Cell) : Board N :=
  ⟨(b.cells.set index value.isSome).set (index + 1) (blackBit value), by simp [b.hlen]⟩

/-- Cell write, from `Board::set` (`index = 2 * pos`). -/
def Board.set {N : Nat} (b : Board N) (pos : Nat) (value : Cell) : Board N :=
  b.setBits (2 * pos) value

/-- Occupancy test, from `Board::is_occupied` / `_is_occupied`. -/
def Board.is_occupied {N : Nat} (b : Board N) (pos : Nat) : Bool :=
  b.cells.getD (2 * pos) false

/-- Cell read, from the `Index<Pos>` implementation for `Board`. -/
def Board.get {N : Nat} (b : Board N) (pos : Nat) : Cell :=
  if b.cells.getD (2 * pos) false then
    if b.cells.getD (2 * pos + 1) false then some .Black else some .White
  else none

/-- Conditional write, from `Board::set_if_empty`.  The returned board is the
(unchanged) receiver in the error case, mirroring that the Rust method does
not mutate on error. -/
def Board.set_if_empty {N : Nat} (b : Board N) (pos : Nat) (value : Player) :
    Except PlaceStoneError Unit × Board N :=
  if b.cells.getD (2 * pos) false then (.error .CellOccupied, b)
  else (.ok (), b.setBits (2 * pos) (some value))

/-! Union-find, from `union_find.rs`.  The `groups` array is a `List Nat`
mapping each position to its parent; roots point to themselves.  The
path-splitting loop of `find_group_root` is modelled with fuel: each loop
iteration strictly decreases the current position under invariant A
(`groups[i] ≤ i`), so fuel `cur + 1` is never exhausted. -/

/-- Loop body of `UnionFindAlgorithm::find_group_root` (path splitting),
with explicit fuel. -/
def findAux : List Nat → Nat → Nat → Nat × List Nat
  | g, cur, 0 => (cur, g)
  | g, cur, fuel + 1 =>
    let par := g.getD cur 0
    if par = cur then (cur, g)
    else
      let grand := g.getD par 0
      findAux (g.set cur grand) par fuel

/-- `UnionFindAlgorithm::find_group_root`. -/
def find_group_root (g : List Nat) (cur : Nat) : Nat × List Nat :=
  findAux g cur (cur + 1)

/-- `UnionFindAlgorithm::add_to_group`. -/
def add_to_group (g : List Nat) (pos root : Nat) : List Nat :=
  g.set pos root

/-- `UnionFindAlgorithm::merge_groups`: the smaller root survives. -/
def merge_groups (g : List Nat) (lhs rhs : Nat) : Nat × List Nat :=
  if lhs ≤ rhs then (lhs, g.set rhs lhs) else (rhs, g.set lhs rhs)

/-- Invariant A from `union_find.rs`: every parent pointer goes to an index
no larger than its own (out-of-range reads default to 0). -/
def InvA (g : List Nat) : Prop := ∀ i, g.getD i 0 ≤ i

/-- Abstract root of a union-find node: follow parent pointers with fuel. -/
def rootFuel (g : List Nat) : Nat → Nat → Nat
  | 0, p => p
  | f + 1, p =>
    let q := g.getD p 0
    if q = p then p else rootFuel g f q

/-- Abstract root of a union-find node, with canonical fuel. -/
def rootD (g : List Nat) (p : Nat) : Nat := rootFuel g (p + 1) p

/-- Result of the grouping, from `grouped_stones.rs`. -/
structure GroupedStones where
  pos_to_group : List Nat
  num_groups : Nat
deriving DecidableEq

/-- Group lookup, from `GroupedStones::group_at`. -/
def GroupedStones.group_at (gs : GroupedStones) (pos : Nat) : Nat :=
  gs.pos_to_group.getD pos 0

/-- One step of `UnionFindAlgorithm::finalize`: state is
`(gids, next group number, union-find array)`. -/
def finalizeStep (st : List Nat × Nat × List Nat) (index : Nat) :
    List Nat × Nat × List Nat :=
  let r := find_group_root st.2.2 index
  if r.1 = index then (st.1.set index st.2.1, st.2.1 + 1, r.2)
  else (st.1.set index (st.1.getD r.1 0), st.2.1, r.2)

/-- `UnionFindAlgorithm::finalize` over a universe of `NN` positions. -/
def finalize (NN : Nat) (g : List Nat) : GroupedStones :=
  let st := (List.range NN).foldl finalizeStep (List.replicate NN 0, 0, g)
  ⟨st.1, st.2.1⟩

/-- The `matches_left_stone` test of the construction pass. -/
def matches_left {N : Nat} (board : Board N) (p : Nat) : Bool :=
  match posLeft N p with
  | some l => decide (board.get p = board.get l)
  | none => false

/-- The `matches_top_stone` test of the construction pass. -/
def matches_top {N : Nat} (board : Board N) (p : Nat) : Bool :=
  match posUp N p with
  | some u => decide (board.get p = board.get u)
  | none => false

/-- One position of the construction pass of `group_connected_stones`
(`algorithm.rs`). -/
def groupStep {N : Nat} (board : Board N) (g : List Nat) (p : Nat) : List Nat :=
  match matches_left board p, matches_top board p with
  | false, false => add_to_group g p p
  | true, false =>
    let fl := find_group_root g ((posLeft N p).getD 0)
    add_to_group fl.2 p fl.1
  | false, true =>
    let fu := find_group_root g ((posUp N p).getD 0)
    add_to_group fu.2 p fu.1
  | true, true =>
    let fl := find_group_root g ((posLeft N p).getD 0)
    let fu := find_group_root fl.2 ((posUp N p).getD 0)
    if fl.1 = fu.1 then add_to_group fu.2 p fl.1
    else
      let m := merge_groups fu.2 fl.1 fu.1
      add_to_group m.2 p m.1

/-- The raw union-find array after the construction pass of
`group_connected_stones`. -/
def groupPass {N : Nat} (board : Board N) : List Nat :=
  (List.range (N * N)).foldl (groupStep board) (List.replicate (N * N) 0)

/-- `group_connected_stones` from `algorithm.rs`: construction pass followed
by finalization. -/
def group_connected_stones {N : Nat} (board : Board N) : GroupedStones :=
  finalize (N * N) (groupPass board)

/-! The analysis, from `analysis.rs`. -/

/-- Per-group info, from `analysis.rs` (`GroupInfo`). -/
inductive GroupInfo
  | PlayerGroup (owner : Player) (liberties : Nat)
  | EmptyStonesGroup
  | Unknown (liberties : Nat)
deriving DecidableEq

/-- Insertion into the fixed-capacity set (`SmallSet::insert`): append if not
yet present. -/
def smallInsert (s : List Nat) (x : Nat) : List Nat :=
  if x ∈ s then s else s ++ [x]

/-- The set of group ids an empty cell hands a liberty to: the cell's own
group plus the groups of its four neighbours, deduplicated, in the insertion
order of `_liberties_and_owners_of_groups`. -/
def libertySet {N : Nat} (gids : List Nat) (pos : Nat) : List Nat :=
  let s := smallInsert [] (gids.getD pos 0)
  let s := match posLeft N pos with
    | some l => smallInsert s (gids.getD l 0)
    | none => s
  let s := match posUp N pos with
    | some u => smallInsert s (gids.getD u 0)
    | none => s
  let s := match posRight N pos with
    | some r => smallInsert s (gids.getD r 0)
    | none => s
  match posDown N pos with
  | some d => smallInsert s (gids.getD d 0)
  | none => s

/-- One position of the scan in `_liberties_and_owners_of_groups`.  The
`assert_eq!(owner, actual_owner)` panic is modelled by returning `none`. -/
def libStep {N : Nat} (board : Board N) (gids : List Nat)
    (acc : Option (List GroupInfo)) (pos : Nat) : Option (List GroupInfo) :=
  match acc with
  | none => none
  | some info =>
    match board.get pos with
    | some owner =>
      let g := gids.getD pos 0
      match info.getD g (.Unknown 0) with
      | .EmptyStonesGroup => some (info.set g (.PlayerGroup owner 0))
      | .Unknown libs => some (info.set g (.PlayerGroup owner libs))
      | .PlayerGroup actual _ =>
        if owner = actual then some info else none
    | none =>
      let g := gids.getD pos 0
      let info1 := info.set g .EmptyStonesGroup
      some ((libertySet (N := N) gids pos).foldl
        (fun inf gi =>
          match inf.getD gi (.Unknown 0) with
          | .Unknown l => inf.set gi (.Unknown (l + 1))
          | .PlayerGroup o l => inf.set gi (.PlayerGroup o (l + 1))
          | .EmptyStonesGroup => inf)
        info1)

/-- `Analysis::_liberties_and_owners_of_groups`. -/
def liberties_and_owners {N : Nat} (board : Board N) (gids : List Nat)
    (numGroups : Nat) : Option (List GroupInfo) :=
  (List.range (N * N)).foldl (libStep board gids)
    (some (List.replicate numGroups (.Unknown 0)))

/-- The analysis record, from `analysis.rs`. -/
structure Analysis (N : Nat) where
  pos_to_group : List Nat
  group_info : List GroupInfo
deriving DecidableEq

/-- `Analysis::group_at`. -/
def Analysis.group_at {N : Nat} (a : Analysis N) (pos : Nat) : Nat :=
  a.pos_to_group.getD pos 0

/-- `Analysis::analyze`; `none` models the owner-consistency panic. -/
def analyze {N : Nat} (board : Board N) : Option (Analysis N) :=
  let gs := group_connected_stones board
  match liberties_and_owners board gs.pos_to_group gs.num_groups with
  | some info => some ⟨gs.pos_to_group, info⟩
  | none => none

/-- Modelled from the spec: `Analysis::update_group_info` is called by
`Game::_take_prisoners` but its definition is not part of the sources at
hand.  Per §4.4 step 2 of the specification it refreshes the liberty/owner
information on the current board while retaining the same grouping, so it is
modelled as re-running `_liberties_and_owners_of_groups` with the retained
`pos_to_group`. -/
def Analysis.update_group_info {N : Nat} (a : Analysis N) (board : Board N) :
    Option (Analysis N) :=
  match liberties_and_owners board a.pos_to_group a.group_info.length with
  | some info => some ⟨a.pos_to_group, info⟩
  | none => none

/-! The game, from `game.rs`. -/

/-- The game state, from `game.rs`.  The `EnumMap<Player, NumStones>` of
prisoner counts is modelled as two unbounded counters (all counts arising in
the claims fit the source's integer types). -/
structure Game (N : Nat) where
  board : Board N
  current_player : Player
  captured_by_black : Nat
  captured_by_white : Nat
  analysis : Analysis N
deriving DecidableEq

/-- Observer `Game::num_captured_by`. -/
def Game.num_captured_by {N : Nat} (game : Game N) (p : Player) : Nat :=
  match p with
  | .Black => game.captured_by_black
  | .White => game.captured_by_white

/-- Prisoner-count update (`self.num_captured_by[player] += num_captured`). -/
def Game.addCaptured {N : Nat} (game : Game N) (p : Player) (n : Nat) : Game N :=
  match p with
  | .Black => { game with captured_by_black := game.captured_by_black + n }
  | .White => { game with captured_by_white := game.captured_by_white + n }

/-- `Game::_capture_group`: remove every position of the group from the
board, counting the removed stones. -/
def captureGroup {N : Nat} (a : Analysis N) (g : Nat) (board : Board N) :
    Board N × Nat :=
  (List.range (N * N)).foldl
    (fun st pos => if a.group_at pos = g then (st.1.set pos none, st.2 + 1) else st)
    (board, 0)

/-- The zero-liberty groups of the opponent collected by
`Game::_player_takes_prisoners`, in group-id order. -/
def groupsToCapture {N : Nat} (a : Analysis N) (opponent : Player) : List Nat :=
  (List.range a.group_info.length).filter (fun g =>
    match a.group_info.getD g (.Unknown 0) with
    | .PlayerGroup o l => decide (o = opponent) && decide (l = 0)
    | _ => false)

/-- `Game::_player_takes_prisoners`. -/
def Game.player_takes_prisoners {N : Nat} (game : Game N) (player : Player) :
    Game N :=
  let opponent := player.other_player
  (groupsToCapture game.analysis opponent).foldl
    (fun gm g =>
      let bn := captureGroup gm.analysis g gm.board
      Game.addCaptured { gm with board := bn.1 } player bn.2)
    game

/-- `Game::_take_prisoners`: capture opponent groups, refresh the group
info, then capture the mover's own groups. -/
def Game.take_prisoners {N : Nat} (game : Game N) : Option (Game N) :=
  let g1 := game.player_takes_prisoners game.current_player
  match g1.analysis.update_group_info g1.board with
  | none => none
  | some a =>
    let g2 := { g1 with analysis := a }
    some (g2.player_takes_prisoners game.current_player.other_player)

/-- `Game::place_stone`.  The result pairs the returned `Result` with the
post-call state; `none` models a panic inside the analysis. -/
def Game.place_stone {N : Nat} (game : Game N) (pos : Nat) :
    Option (Except PlaceStoneError Unit × Game N) :=
  match game.board.set_if_empty pos game.current_player with
  | (.error e, _) => some (.error e, game)
  | (.ok _, b) =>
    match analyze b with
    | none => none
    | some a =>
      match Game.take_prisoners { game with board := b, analysis := a } with
      | none => none
      | some g2 =>
        some (.ok (), { g2 with current_player := g2.current_player.other_player })

/-- `Game::pass_turn`. -/
def Game.pass_turn {N : Nat} (game : Game N) : Game N :=
  { game with current_player := game.current_player.other_player }

/-- `Game::from_board` (test constructor used by the end-to-end scenarios). -/
def Game.from_board {N : Nat} (board : Board N) (current : Player)
    (capBlack capWhite : Nat) : Option (Game N) :=
  match analyze board with
  | some a => some ⟨board, current, capBlack, capWhite, a⟩
  | none => none

/-! Board text input (`Board::from_str`) and the `Debug` rendering of
`Board`, both from `board.rs`.  Text is modelled as `List Char`. -/

/-- Whitespace trimming, from `trim_whitespaces` in `board.rs`. -/
def trimWS : List Char → List Char
  | [] => []
  | c :: cs => if c.isWhitespace then trimWS cs else c :: cs

/-- The per-token match of `Board::from_str`: `_` empty, `○` Black,
`●` White, anything else an error. -/
def parseCellChar (c : Char) : Except String Cell :=
  if c = '_' then .ok none
  else if c = '○' then .ok (some .Black)
  else if c = '●' then .ok (some .White)
  else .error "Invalid input format: unexpected character"

/-- Inner loop of `Board::from_str` over the cells of row `y`;
the countdown starts at `N`. -/
def parseRowGo {N : Nat} (y : Nat) : Nat → Nat → Board N → List Char →
    Except String (Board N × List Char)
  | _, 0, b, input => .ok (b, input)
  | x, cnt + 1, b, input =>
    match trimWS input with
    | [] => .error "Invalid input format: unexpected end of input"
    | c :: rest =>
      match parseCellChar c with
      | .error e => .error e
      | .ok v => parseRowGo y (x + 1) cnt (b.set (posFromXY N x y) v) rest

/-- Outer loop of `Board::from_str` over the rows, each row followed by a
whitespace trim; the countdown starts at `N`. -/
def parseRowsGo {N : Nat} : Nat → Nat → Board N → List Char →
    Except String (Board N × List Char)
  | _, 0, b, input => .ok (b, input)
  | y, cnt + 1, b, input =>
    match parseRowGo y 0 N b input with
    | .error e => .error e
    | .ok (b', rest) => parseRowsGo (y + 1) cnt b' (trimWS rest)

/-- `Board::from_str`: parse `N` rows of `N` tokens starting from the empty
board, then reject any trailing non-whitespace character. -/
def Board.from_str (N : Nat) (input : List Char) : Except String (Board N) :=
  match parseRowsGo 0 N (Board.new N) input with
  | .error e => .error e
  | .ok (b, rest) =>
    match trimWS rest with
    | [] => .ok b
    | _ :: _ => .error "Invalid input format: extra characters found after board"

/-- The token the `Debug` implementation for `Board` writes for one cell
(note: it renders Black as `●` and White as `○`). -/
def debugCellChars : Cell → List Char
  | some .Black => ['●', ' ']
  | some .White => ['○', ' ']
  | none => ['_', ' ']

/-- One row of the `Debug` rendering, terminated by the `writeln!`. -/
def debugRowText {N : Nat} (b : Board N) (y : Nat) : List Char :=
  ((List.range N).map (fun x => debugCellChars (b.get (posFromXY N x y)))).flatten ++ ['\n']

/-- The grid part of the `Debug` rendering of `Board`. -/
def boardGridText {N : Nat} (b : Board N) : List Char :=
  ((List.range N).map (debugRowText b)).flatten

/-- The full `Debug` rendering of `Board`: the grid wrapped in
`Board(` … `)`. -/
def boardDebugText {N : Nat} (b : Board N) : List Char :=
  ("Board(".toList ++ ['\n']) ++ boardGridText b ++ (")".toList ++ ['\n'])

/-! Adjacency, connectivity and grouping invariants used by the proofs. -/

/-- Four-neighbour adjacency of positions, via the neighbour functions of
`pos.rs`. -/
def adjacentP (N p q : Nat) : Prop :=
  posLeft N p = some q ∨ posRight N p = some q ∨
    posUp N p = some q ∨ posDown N p = some q

/-- Connectivity of cells within the row-major prefix `[0, k)`: the
equivalence generated by 4-adjacency between cells holding the same
tri-state value. -/
inductive Conn {N : Nat} (board : Board N) (k : Nat) : Nat → Nat → Prop
  | edge {p q : Nat} : p < k → q < k → adjacentP N p q →
      board.get p = board.get q → Conn board k p q
  | refl (p : Nat) : Conn board k p p
  | symm {p q : Nat} : Conn board k p q → Conn board k q p
  | trans {p q r : Nat} : Conn board k p q → Conn board k q r → Conn board k p r

/-- The join condition of a freshly scanned cell `p`: a previously scanned
cell is merged with `p` iff it is connected (within the scanned prefix) to a
matching left or top neighbour of `p`. -/
def reachNew {N : Nat} (board : Board N) (p z : Nat) : Prop :=
  z = p ∨ (matches_left board p = true ∧ Conn board p z (p - 1)) ∨
    (matches_top board p = true ∧ Conn board p z (p - N))

/-- Invariant of the construction pass after scanning the row-major prefix
`[0, k)`: two scanned cells have equal union-find roots iff they are
connected within the prefix. -/
def StepInv {N : Nat} (board : Board N) (k : Nat) (g : List Nat) : Prop :=
  g.length = N * N ∧ InvA g ∧
    ∀ x y, x < k → y < k → (rootD g x = rootD g y ↔ Conn board k x y)

/-- Number of union-find root entries among the first `k` positions. -/
def numRootsBelow (g : List Nat) (k : Nat) : Nat :=
  ((List.range k).filter (fun i => decide (g.getD i 0 = i))).length

def firstMemberOf (gs : GroupedStones) (NN m : Nat) : Nat :=
  ((List.range NN).filter (fun p => decide (gs.group_at p = m))).headD NN

/-- The four neighbours of a position that exist, in the insertion order of
`_liberties_and_owners_of_groups` (left, up, right, down). -/
def neighborsOf (N p : Nat) : List Nat :=
  (posLeft N p).toList ++ (posUp N p).toList ++
    (posRight N p).toList ++ (posDown N p).toList

/-- Number of empty cells among the first `k` positions that hand a liberty
to group `m` (the accumulation counted by the liberty scan). -/
def libCount {N : Nat} (board : Board N) (gids : List Nat) (m k : Nat) : Nat :=
  ((List.range k).filter (fun e =>
    decide (board.get e = none) && decide (m ∈ libertySet (N := N) gids e))).length

/-- Number of distinct empty cells 4-adjacent to at least one cell of group
`m` (the liberty count described by the specification). -/
def adjLibCount {N : Nat} (board : Board N) (gids : List Nat) (m : Nat) : Nat :=
  ((List.range (N * N)).filter (fun e =>
    decide (board.get e = none) &&
      (neighborsOf N e).any (fun n => decide (gids.getD n 0 = m)))).length

/-- Effect of one liberty increment on a group record. -/
def bumpInfo : GroupInfo → GroupInfo
  | .Unknown l => .Unknown (l + 1)
  | .PlayerGroup o l => .PlayerGroup o (l + 1)
  | .EmptyStonesGroup => .EmptyStonesGroup

/-- Board used as concrete input for the C3 witness: a single Black stone
in the corner of a 3x3 board. -/
def c3Board : Board 3 := (Board.new 3).set 0 (some .Black)

/-! Concrete scenario boards used by the end-to-end claims. -/

/-- Scenario-2 start: a Black ring enclosing a White ring around the single
empty cell (2,2) on a 5x5 board (`capture_opponent_before_capturing_self`). -/
def scenario2Text : List Char := ("
            ○ ○ ○ ○ ○
            ○ ● ● ● ○
            ○ ● _ ● ○
            ○ ● ● ● ○
            ○ ○ ○ ○ ○
        ").toList

/-- Scenario-2 expected final position: the single Black stone inside the
now-empty ring. -/
def scenario2After : List Char := ("
            ○ ○ ○ ○ ○
            ○ _ _ _ ○
            ○ _ ○ _ ○
            ○ _ _ _ ○
            ○ ○ ○ ○ ○
        ").toList

/-- Board with two White stones next to the (0,0) corner: Black playing the
corner is a pure suicide (captures nothing, the placed stone has no
liberties). -/
def suicideText : List Char := ("
            _ ● _
            ● _ _
            _ _ _
        ").toList

/-- Concrete game used as input for the C6 witness: an empty 3x3 board,
Black to move. -/
def c6Game : Game 3 := ⟨Board.new 3, .Black, 0, 0, ⟨[], []⟩⟩

/-- The state after Black plays the corner of `c6Game`. -/
def c6After : Game 3 :=
  match c6Game.place_stone 0 with
  | some (_, g) => g
  | none => c6Game

/-! Helper lemmas about bit-list reads and writes. -/

theorem getD_set_self {α : Type} (l : List α) (i : Nat) (v d : α)
    (h : i < l.length) : (l.set i v).getD i d = v := by
  simp [List.getD_eq_getElem?_getD, List.getElem?_set_self, h]

theorem getD_set_ne {α : Type} (l : List α) {i j : Nat} (v d : α)
    (h : i ≠ j) : (l.set i v).getD j d = l.getD j d := by
  simp [List.getD_eq_getElem?_getD, List.getElem?_set_ne h]

theorem rootFuel_congr {g : List Nat} (hA : InvA g) :
    ∀ p f f', p + 1 ≤ f → p + 1 ≤ f' → rootFuel g f p = rootFuel g f' p := by
  intro p
  induction p using Nat.strong_induction_on with
  | _ p ih =>
    intro f f' hf hf'
    match f, hf with
    | f + 1, _ =>
      match f', hf' with
      | f' + 1, _ =>
        show (if g.getD p 0 = p then p else rootFuel g f (g.getD p 0)) =
          (if g.getD p 0 = p then p else rootFuel g f' (g.getD p 0))
        by_cases hq : g.getD p 0 = p
        · rw [if_pos hq, if_pos hq]
        · have hlt : g.getD p 0 < p := lt_of_le_of_ne (hA p) hq
          rw [if_neg hq, if_neg hq]
          exact ih _ hlt f f' (by omega) (by omega)

theorem rootFuel_eq_rootD {g : List Nat} (hA : InvA g) {p f : Nat}
    (hf : p + 1 ≤ f) : rootFuel g f p = rootD g p :=
  rootFuel_congr hA p f (p + 1) hf (Nat.le_refl _)

theorem rootD_unfold {g : List Nat} (hA : InvA g) (p : Nat) :
    rootD g p = if g.getD p 0 = p then p else rootD g (g.getD p 0) := by
  show (if g.getD p 0 = p then p else rootFuel g p (g.getD p 0)) = _
  by_cases hq : g.getD p 0 = p
  · rw [if_pos hq, if_pos hq]
  · have hlt : g.getD p 0 < p := lt_of_le_of_ne (hA p) hq
    rw [if_neg hq, if_neg hq]
    exact rootFuel_eq_rootD hA (by omega)

theorem rootD_le {g : List Nat} (hA : InvA g) (p : Nat) : rootD g p ≤ p := by
  induction p using Nat.strong_induction_on with
  | _ p ih =>
    rw [rootD_unfold hA]
    by_cases hq : g.getD p 0 = p
    · rw [if_pos hq]
    · have hlt : g.getD p 0 < p := lt_of_le_of_ne (hA p) hq
      rw [if_neg hq]
      exact le_trans (ih _ hlt) (le_of_lt hlt)

theorem rootD_of_entry {g : List Nat} (hA : InvA g) {p : Nat}
    (h : g.getD p 0 = p) : rootD g p = p := by
  rw [rootD_unfold hA, if_pos h]

theorem rootD_getD {g : List Nat} (hA : InvA g) (p : Nat) :
    rootD g (g.getD p 0) = rootD g p := by
  by_cases hq : g.getD p 0 = p
  · rw [hq]
  · rw [rootD_unfold hA p, if_neg hq]

theorem rootD_entry_self {g : List Nat} (hA : InvA g) (p : Nat) :
    g.getD (rootD g p) 0 = rootD g p := by
  induction p using Nat.strong_induction_on with
  | _ p ih =>
    rw [rootD_unfold hA]
    by_cases hq : g.getD p 0 = p
    · rw [if_pos hq]
      exact hq
    · have hlt : g.getD p 0 < p := lt_of_le_of_ne (hA p) hq
      rw [if_neg hq]
      exact ih _ hlt

theorem rootD_idem {g : List Nat} (hA : InvA g) (p : Nat) :
    rootD g (rootD g p) = rootD g p :=
  rootD_of_entry hA (rootD_entry_self hA p)

theorem entry_of_rootD_self {g : List Nat} (hA : InvA g) {p : Nat}
    (h : rootD g p = p) : g.getD p 0 = p := by
  have := rootD_entry_self hA p
  rwa [h] at this


theorem getD_set_cases (g : List Nat) (a b i : Nat) :
    (g.set a b).getD i 0 = if i = a ∧ a < g.length then b else g.getD i 0 := by
  by_cases hi : i = a
  · subst hi
    by_cases hl : i < g.length
    · rw [getD_set_self _ _ _ _ hl, if_pos ⟨rfl, hl⟩]
    · rw [if_neg (by tauto)]
      rw [List.set_eq_of_length_le (by omega)]
  · rw [getD_set_ne _ _ _ (fun h => hi h.symm), if_neg (by tauto)]

theorem InvA_set {g : List Nat} (hA : InvA g) {a b : Nat} (hba : b ≤ a) :
    InvA (g.set a b) := by
  intro i
  rw [getD_set_cases]
  by_cases hc : i = a ∧ a < g.length
  · rw [if_pos hc]
    omega
  · rw [if_neg hc]
    exact hA i

/-- Writes at or above `a` do not change the root of nodes below `a`. -/
theorem rootD_set_lt {g : List Nat} (hA : InvA g) {a b : Nat} (hba : b ≤ a) :
    ∀ x, x < a → rootD (g.set a b) x = rootD g x := by
  have hA' : InvA (g.set a b) := InvA_set hA hba
  intro x
  induction x using Nat.strong_induction_on with
  | _ x ih =>
    intro hxa
    have hcond : ¬(x = a ∧ a < g.length) := by omega
    rw [rootD_unfold hA', rootD_unfold hA, getD_set_cases, if_neg hcond]
    by_cases hq : g.getD x 0 = x
    · rw [if_pos hq, if_pos hq]
    · rw [if_neg hq, if_neg hq]
      have hlt : g.getD x 0 < x := lt_of_le_of_ne (hA x) hq
      exact ih _ hlt (by omega)

/-- Path-splitting write: repointing a non-root node to another node with the
same root changes no root. -/
theorem rootD_set_repoint {g : List Nat} (hA : InvA g) {a b : Nat}
    (hba : b < a) (hal : a < g.length) (hr : rootD g b = rootD g a) :
    ∀ x, rootD (g.set a b) x = rootD g x := by
  have hA' : InvA (g.set a b) := InvA_set hA (le_of_lt hba)
  intro x
  induction x using Nat.strong_induction_on with
  | _ x ih =>
    by_cases hxa : x = a
    · subst hxa
      have hcond : ((x : Nat) = x ∧ x < g.length) := ⟨rfl, hal⟩
      have hbx : ¬((b : Nat) = x) := by omega
      rw [rootD_unfold hA', getD_set_cases, if_pos hcond, if_neg hbx]
      rw [ih b hba, hr]
    · have hcond : ¬(x = a ∧ a < g.length) := by tauto
      rw [rootD_unfold hA', getD_set_cases, if_neg hcond, rootD_unfold hA x]
      by_cases hq : g.getD x 0 = x
      · rw [if_pos hq, if_pos hq]
      · rw [if_neg hq, if_neg hq]
        have hlt : g.getD x 0 < x := lt_of_le_of_ne (hA x) hq
        exact ih _ hlt

/-- Merge write: pointing root `b` at root `a < b` sends every node whose
root was `b` to root `a` and leaves all other roots unchanged. -/
theorem rootD_set_merge {g : List Nat} (hA : InvA g) {a b : Nat}
    (hab : a < b) (hbl : b < g.length)
    (hra : g.getD a 0 = a) (hrb : g.getD b 0 = b) :
    ∀ x, rootD (g.set b a) x = if rootD g x = b then a else rootD g x := by
  have hA' : InvA (g.set b a) := InvA_set hA (le_of_lt hab)
  intro x
  induction x using Nat.strong_induction_on with
  | _ x ih =>
    by_cases hxb : x = b
    · subst hxb
      have hcond : ((x : Nat) = x ∧ x < g.length) := ⟨rfl, hbl⟩
      have hax : ¬((a : Nat) = x) := by omega
      rw [rootD_unfold hA', getD_set_cases, if_pos hcond, if_neg hax]
      rw [ih a hab]
      rw [rootD_of_entry hA hra, rootD_of_entry hA hrb]
      rw [if_neg (by omega : ¬(a = x)), if_pos rfl]
    · have hcond : ¬(x = b ∧ b < g.length) := by tauto
      rw [rootD_unfold hA', getD_set_cases, if_neg hcond]
      by_cases hq : g.getD x 0 = x
      · rw [if_pos hq, rootD_of_entry hA hq, if_neg (by omega : ¬(x = b))]
      · rw [if_neg hq]
        have hlt : g.getD x 0 < x := lt_of_le_of_ne (hA x) hq
        rw [ih _ hlt, ← rootD_getD hA x]

theorem findAux_succ (g : List Nat) (cur fuel : Nat) :
    findAux g cur (fuel + 1) =
      if g.getD cur 0 = cur then (cur, g)
      else findAux (g.set cur (g.getD (g.getD cur 0) 0)) (g.getD cur 0) fuel := rfl

/-- Full specification of the path-splitting find loop. -/
theorem findAux_spec :
    ∀ (fuel : Nat) (g : List Nat) (cur : Nat), InvA g → cur < g.length →
    cur + 1 ≤ fuel →
    (findAux g cur fuel).1 = rootD g cur ∧
    (findAux g cur fuel).2.length = g.length ∧
    InvA (findAux g cur fuel).2 ∧
    (∀ x, rootD (findAux g cur fuel).2 x = rootD g x) ∧
    (∀ x, (findAux g cur fuel).2.getD x 0 = x ↔ g.getD x 0 = x) := by
  intro fuel
  induction fuel with
  | zero =>
    intro g cur _ _ h
    omega
  | succ fuel ih =>
    intro g cur hA hcl hf
    rw [findAux_succ]
    by_cases hq : g.getD cur 0 = cur
    · rw [if_pos hq]
      exact ⟨(rootD_of_entry hA hq).symm, rfl, hA, fun _ => rfl, fun _ => Iff.rfl⟩
    · rw [if_neg hq]
      have hpar : g.getD cur 0 < cur := lt_of_le_of_ne (hA cur) hq
      have hgrand : g.getD (g.getD cur 0) 0 ≤ g.getD cur 0 := hA _
      have hrgg : rootD g (g.getD (g.getD cur 0) 0) = rootD g cur := by
        rw [rootD_getD hA, rootD_getD hA]
      have hset1 : InvA (g.set cur (g.getD (g.getD cur 0) 0)) :=
        InvA_set hA (by omega)
      have hlen1 : (g.set cur (g.getD (g.getD cur 0) 0)).length = g.length := by simp
      have hroots1 : ∀ x, rootD (g.set cur (g.getD (g.getD cur 0) 0)) x = rootD g x :=
        rootD_set_repoint hA (by omega) hcl hrgg
      obtain ⟨h1, h2, h3, h4, h5⟩ :=
        ih (g.set cur (g.getD (g.getD cur 0) 0)) (g.getD cur 0) hset1 (by omega)
          (by omega)
      refine ⟨?_, by omega, h3, ?_, ?_⟩
      · rw [h1, hroots1, rootD_getD hA]
      · intro x
        rw [h4, hroots1]
      · intro x
        rw [h5 x, getD_set_cases]
        by_cases hc : x = cur ∧ cur < g.length
        · obtain ⟨hx, _⟩ := hc
          subst hx
          rw [if_pos ⟨rfl, hcl⟩]
          constructor
          · intro h
            omega
          · intro h
            omega
        · rw [if_neg hc]


/-- Specification of `find_group_root`: it returns the abstract root and an
array with the same length, invariant A, the same roots, and the same root
entries. -/
theorem find_spec {g : List Nat} {cur : Nat} (hA : InvA g) (hcl : cur < g.length) :
    (find_group_root g cur).1 = rootD g cur ∧
    (find_group_root g cur).2.length = g.length ∧
    InvA (find_group_root g cur).2 ∧
    (∀ x, rootD (find_group_root g cur).2 x = rootD g x) ∧
    (∀ x, (find_group_root g cur).2.getD x 0 = x ↔ g.getD x 0 = x) :=
  findAux_spec (cur + 1) g cur hA hcl (Nat.le_refl _)

/-- Specification of `merge_groups` on two distinct roots. -/
theorem merge_spec {g : List Nat} {a b : Nat} (hA : InvA g)
    (hra : g.getD a 0 = a) (hrb : g.getD b 0 = b) (hne : a ≠ b)
    (hal : a < g.length) (hbl : b < g.length) :
    (merge_groups g a b).1 = min a b ∧
    (merge_groups g a b).2.length = g.length ∧
    InvA (merge_groups g a b).2 ∧
    (∀ x, rootD (merge_groups g a b).2 x =
      if rootD g x = max a b then min a b else rootD g x) := by
  unfold merge_groups
  by_cases hab : a ≤ b
  · have hlt : a < b := lt_of_le_of_ne hab hne
    rw [if_pos hab]
    refine ⟨by omega, by simp, InvA_set hA (by omega), ?_⟩
    intro x
    rw [rootD_set_merge hA hlt hbl hra hrb x]
    rw [Nat.max_eq_right hab, Nat.min_eq_left hab]
  · have hlt : b < a := by omega
    rw [if_neg hab]
    refine ⟨by omega, by simp, InvA_set hA (by omega), ?_⟩
    intro x
    rw [rootD_set_merge hA hlt hal hrb hra x]
    rw [Nat.max_eq_left (by omega), Nat.min_eq_right (by omega)]

theorem Board.get_set_self {N : Nat} (b : Board N) (p : Nat) (v : Cell)
    (hp : p < N * N) : (b.set p v).get p = v := by
  have h1 : 2 * p < b.cells.length := by rw [b.hlen]; omega
  have h2 : 2 * p + 1 < (b.cells.set (2 * p) v.isSome).length := by
    rw [List.length_set, b.hlen]; omega
  unfold Board.set Board.setBits Board.get
  simp only
  rw [getD_set_ne _ _ _ (by omega), getD_set_self _ _ _ _ h1, getD_set_self _ _ _ _ h2]
  cases v with
  | none => simp
  | some pl => cases pl <;> simp [blackBit]

theorem Board.get_set_ne {N : Nat} (b : Board N) {p q : Nat} (v : Cell)
    (hne : q ≠ p) : (b.set p v).get q = b.get q := by
  unfold Board.set Board.setBits Board.get
  simp only
  rw [getD_set_ne _ _ _ (by omega), getD_set_ne _ _ _ (by omega),
    getD_set_ne _ _ _ (by omega), getD_set_ne _ _ _ (by omega)]

theorem Board.is_occupied_iff_get {N : Nat} (b : Board N) (p : Nat) :
    b.is_occupied p = true ↔ b.get p ≠ none := by
  unfold Board.is_occupied Board.get
  cases hocc : b.cells.getD (2 * p) false
  · simp [hocc]
  · simp only [hocc, if_true]
    constructor
    · intro _
      split <;> simp
    · intro _
      trivial

/-- C9: writing a cell with `Board::set` makes a read of that cell return the
written value, and reads of every other position are unchanged: the two-bit
packed writes never disturb any other cell. -/
theorem claim_C9 {N : Nat} (b : Board N) (p : Nat) (v : Cell) (hp : p < N * N) :
    (b.set p v).get p = v ∧ ∀ q, q ≠ p → (b.set p v).get q = b.get q :=
  ⟨Board.get_set_self b p v hp, fun _ hq => Board.get_set_ne b v hq⟩

/-- Witness for C9 at a concrete input. -/
theorem claim_C9_witness :
    (0 : Nat) < 3 * 3 ∧
      (((Board.new 3).set 0 (some .Black)).get 0 = some .Black ∧
        ∀ q, q ≠ 0 → ((Board.new 3).set 0 (some .Black)).get q = (Board.new 3).get q) :=
  ⟨by decide, claim_C9 (Board.new 3) 0 (some .Black) (by decide)⟩

/-- C5: placing on an occupied cell returns `CellOccupied` and leaves the
whole game state (board, side to move and prisoner counts) exactly as it was
before the call. -/
theorem claim_C5 {N : Nat} (game : Game N) (p : Nat)
    (h : game.board.is_occupied p = true) :
    game.place_stone p = some (.error .CellOccupied, game) := by
  unfold Game.place_stone Board.set_if_empty
  unfold Board.is_occupied at h
  rw [h]
  rfl

/-- Witness for C5 at a concrete input. -/
theorem claim_C5_witness :
    (⟨(Board.new 3).set 4 (some .White), .Black, 0, 0, ⟨[], []⟩⟩ :
        Game 3).board.is_occupied 4 = true ∧
      (⟨(Board.new 3).set 4 (some .White), .Black, 0, 0, ⟨[], []⟩⟩ :
          Game 3).place_stone 4 =
        some (.error .CellOccupied,
          ⟨(Board.new 3).set 4 (some .White), .Black, 0, 0, ⟨[], []⟩⟩) :=
  ⟨by decide, claim_C5 _ 4 (by decide)⟩

set_option maxRecDepth 100000 in
/-- C1: from the scenario-2 start position, Black's `place_stone(2,2)` — a
placement that is suicidal in isolation — returns ok, removes the eight
White stones (opponent zero-liberty groups are captured and credited to the
mover before the mover's own groups are checked), leaves the single Black
stone at (2,2), sets Black's prisoner count to 8 and makes White the side to
move. -/
theorem claim_C1 :
    ((Board.from_str 5 scenario2Text).toOption.bind (fun sb =>
      (Game.from_board sb .Black 0 0).bind (fun g =>
        (g.place_stone (posFromXY 5 2 2)).map (fun r =>
          (r.1, r.2.board, r.2.captured_by_black, r.2.captured_by_white,
            r.2.current_player))))) =
    (Board.from_str 5 scenario2After).toOption.map (fun eb =>
      (.ok (), eb, 8, 0, .White)) := by
  decide

set_option maxRecDepth 100000 in
/-- Counterexample to C4 as stated: from `suicideText`, Black's
`place_stone(0,0)` returns ok, yet afterwards the target cell is empty (the
placed stone was immediately captured as a suicide), not Black. -/
theorem claim_C4_counterexample :
    ((Board.from_str 3 suicideText).toOption.bind (fun sb =>
      (Game.from_board sb .Black 0 0).bind (fun g =>
        (g.place_stone (posFromXY 3 0 0)).map (fun r =>
          (r.1, r.2.board.get (posFromXY 3 0 0), r.2.current_player))))) =
    some (.ok (), (none : Cell), .White) := by
  decide

/-! Adjacency on row-major indices and connectivity of equal-valued cells. -/

theorem posLeft_eq_some {N p q : Nat} :
    posLeft N p = some q ↔ 0 < p % N ∧ q = p - 1 := by
  unfold posLeft posX
  split
  · simp only [Option.some_inj]
    constructor
    · intro h
      exact ⟨by assumption, h.symm⟩
    · intro ⟨_, h⟩
      exact h.symm
  · simp only [reduceCtorEq, false_iff]
    intro ⟨h, _⟩
    omega

theorem posRight_eq_some {N p q : Nat} :
    posRight N p = some q ↔ p % N < N - 1 ∧ q = p + 1 := by
  unfold posRight posX
  split
  · simp only [Option.some_inj]
    constructor
    · intro h
      exact ⟨by assumption, h.symm⟩
    · intro ⟨_, h⟩
      exact h.symm
  · simp only [reduceCtorEq, false_iff]
    intro ⟨h, _⟩
    omega

theorem posUp_eq_some {N p q : Nat} :
    posUp N p = some q ↔ 0 < p / N ∧ q = p - N := by
  unfold posUp posY
  split
  · simp only [Option.some_inj]
    constructor
    · intro h
      exact ⟨by assumption, h.symm⟩
    · intro ⟨_, h⟩
      exact h.symm
  · simp only [reduceCtorEq, false_iff]
    intro ⟨h, _⟩
    omega

theorem posDown_eq_some {N p q : Nat} :
    posDown N p = some q ↔ p / N < N - 1 ∧ q = p + N := by
  unfold posDown posY
  split
  · simp only [Option.some_inj]
    constructor
    · intro h
      exact ⟨by assumption, h.symm⟩
    · intro ⟨_, h⟩
      exact h.symm
  · simp only [reduceCtorEq, false_iff]
    intro ⟨h, _⟩
    omega

theorem decomp_mod {N k r : Nat} (hr : r < N) : (N * k + r) % N = r := by
  rw [Nat.mul_add_mod, Nat.mod_eq_of_lt hr]

theorem decomp_div {N k r : Nat} (hr : r < N) : (N * k + r) / N = k := by
  rw [Nat.mul_add_div (by omega), Nat.div_eq_of_lt hr]
  omega

/-- A neighbour of `p` that precedes `p` in row-major order is the left or
the top neighbour. -/
theorem adjacent_lt {N p q : Nat} (h : adjacentP N p q) (hlt : q < p) :
    posLeft N p = some q ∨ posUp N p = some q := by
  rcases h with h | h | h | h
  · exact Or.inl h
  · rw [posRight_eq_some] at h
    omega
  · exact Or.inr h
  · rw [posDown_eq_some] at h
    omega

theorem conn_lt_of_ne {N : Nat} {board : Board N} {k p q : Nat}
    (h : Conn board k p q) (hne : p ≠ q) : p < k ∧ q < k := by
  induction h with
  | edge hp hq _ _ => exact ⟨hp, hq⟩
  | refl p => omega
  | symm _ ih =>
    have := ih (fun h => hne h.symm)
    exact ⟨this.2, this.1⟩
  | trans h1 h2 ih1 ih2 =>
    rename_i p' q' r'
    by_cases hpq : p' = q'
    · subst hpq
      exact ih2 hne
    · by_cases hqr : q' = r'
      · subst hqr
        exact ih1 hne
      · exact ⟨(ih1 hpq).1, (ih2 hqr).2⟩

theorem conn_value_eq {N : Nat} {board : Board N} {k p q : Nat}
    (h : Conn board k p q) : board.get p = board.get q := by
  induction h with
  | edge _ _ _ hv => exact hv
  | refl p => rfl
  | symm _ ih => exact ih.symm
  | trans _ _ ih1 ih2 => exact ih1.trans ih2

theorem conn_mono {N : Nat} {board : Board N} {k k' p q : Nat}
    (hk : k ≤ k') (h : Conn board k p q) : Conn board k' p q := by
  induction h with
  | edge hp hq hadj hv => exact .edge (by omega) (by omega) hadj hv
  | refl p => exact .refl p
  | symm _ ih => exact .symm ih
  | trans _ _ ih1 ih2 => exact .trans ih1 ih2

/-- A neighbour of `x` that follows `x` in row-major order sees `x` as its
left or top neighbour. -/
theorem adjacent_gt {N x p : Nat} (h : adjacentP N x p) (hlt : x < p) :
    posLeft N p = some x ∨ posUp N p = some x := by
  rcases h with h | h | h | h
  · rw [posLeft_eq_some] at h
    omega
  · rw [posRight_eq_some] at h
    obtain ⟨h1, h2⟩ := h
    left
    rw [posLeft_eq_some]
    have hm : x % N < N := Nat.mod_lt _ (by omega)
    have hd := Nat.div_add_mod x N
    have hmod : (x + 1) % N = x % N + 1 := by
      have hx1 : x + 1 = N * (x / N) + (x % N + 1) := by omega
      rw [hx1, decomp_mod (by omega)]
    subst h2
    omega
  · rw [posUp_eq_some] at h
    obtain ⟨h1, h2⟩ := h
    have : 0 < N := by
      by_contra hc
      have : N = 0 := by omega
      subst this
      simp at h1
    have : N ≤ x := by
      by_contra hc
      rw [Nat.div_eq_of_lt (by omega)] at h1
      omega
    omega
  · rw [posDown_eq_some] at h
    obtain ⟨h1, h2⟩ := h
    subst h2
    right
    rw [posUp_eq_some]
    have hN : 0 < N := by omega
    constructor
    · rw [Nat.add_div_right x hN]
      exact Nat.succ_pos _
    · omega

theorem matches_left_iff {N : Nat} {board : Board N} {p : Nat} :
    matches_left board p = true ↔
      0 < p % N ∧ board.get p = board.get (p - 1) := by
  unfold matches_left posLeft posX
  by_cases h : 0 < p % N
  · rw [if_pos h]
    simp [h]
  · rw [if_neg h]
    simp [h]

theorem matches_top_iff {N : Nat} {board : Board N} {p : Nat} :
    matches_top board p = true ↔
      0 < p / N ∧ board.get p = board.get (p - N) := by
  unfold matches_top posUp posY
  by_cases h : 0 < p / N
  · rw [if_pos h]
    simp [h]
  · rw [if_neg h]
    simp [h]

theorem reach_refl {N : Nat} {board : Board N} {p : Nat} : reachNew board p p :=
  Or.inl rfl

theorem reach_conn {N : Nat} {board : Board N} {p z : Nat}
    (h : reachNew board p z) : Conn board (p + 1) z p := by
  rcases h with rfl | ⟨hml, hc⟩ | ⟨hmt, hc⟩
  · exact .refl _
  · obtain ⟨h1, h2⟩ := matches_left_iff.mp hml
    have hedge : Conn board (p + 1) p (p - 1) :=
      .edge (by omega) (by omega) (Or.inl (posLeft_eq_some.mpr ⟨h1, rfl⟩)) h2
    exact .trans (conn_mono (by omega) hc) (.symm hedge)
  · obtain ⟨h1, h2⟩ := matches_top_iff.mp hmt
    have hedge : Conn board (p + 1) p (p - N) :=
      .edge (by omega) (by omega) (Or.inr (Or.inr (Or.inl (posUp_eq_some.mpr ⟨h1, rfl⟩)))) h2
    exact .trans (conn_mono (by omega) hc) (.symm hedge)

theorem reach_of_conn_reach {N : Nat} {board : Board N} {p z w : Nat}
    (hc : Conn board p z w) (h : reachNew board p w) : reachNew board p z := by
  rcases h with rfl | ⟨hml, hcc⟩ | ⟨hmt, hcc⟩
  · by_cases hz : z = w
    · exact Or.inl hz
    · have := conn_lt_of_ne hc hz
      omega
  · exact Or.inr (Or.inl ⟨hml, .trans hc hcc⟩)
  · exact Or.inr (Or.inr ⟨hmt, .trans hc hcc⟩)

theorem conn_succ_iff {N : Nat} {board : Board N} {p x y : Nat} :
    Conn board (p + 1) x y ↔
      Conn board p x y ∨ (reachNew board p x ∧ reachNew board p y) := by
  constructor
  · intro h
    induction h with
    | edge hx hy hadj hv =>
      rename_i a b
      by_cases hap : a = p
      · subst hap
        by_cases hbp : b = a
        · exact Or.inr ⟨reach_refl, hbp ▸ reach_refl⟩
        · have hblt : b < a := by omega
          rcases adjacent_lt hadj hblt with hl | hu
          · obtain ⟨h1, h2⟩ := posLeft_eq_some.mp hl
            have hml : matches_left board a = true :=
              matches_left_iff.mpr ⟨h1, h2 ▸ hv⟩
            exact Or.inr ⟨reach_refl, Or.inr (Or.inl ⟨hml, h2 ▸ .refl _⟩)⟩
          · obtain ⟨h1, h2⟩ := posUp_eq_some.mp hu
            have hmt : matches_top board a = true :=
              matches_top_iff.mpr ⟨h1, h2 ▸ hv⟩
            exact Or.inr ⟨reach_refl, Or.inr (Or.inr ⟨hmt, h2 ▸ .refl _⟩)⟩
      · by_cases hbp : b = p
        · subst hbp
          have halt : a < b := by omega
          rcases adjacent_gt hadj halt with hl | hu
          · obtain ⟨h1, h2⟩ := posLeft_eq_some.mp hl
            have hml : matches_left board b = true :=
              matches_left_iff.mpr ⟨h1, h2 ▸ hv.symm⟩
            exact Or.inr ⟨Or.inr (Or.inl ⟨hml, h2 ▸ .refl _⟩), reach_refl⟩
          · obtain ⟨h1, h2⟩ := posUp_eq_some.mp hu
            have hmt : matches_top board b = true :=
              matches_top_iff.mpr ⟨h1, h2 ▸ hv.symm⟩
            exact Or.inr ⟨Or.inr (Or.inr ⟨hmt, h2 ▸ .refl _⟩), reach_refl⟩
        · exact Or.inl (.edge (by omega) (by omega) hadj hv)
    | refl z => exact Or.inl (.refl z)
    | symm h ih =>
      rcases ih with hc | ⟨r1, r2⟩
      · exact Or.inl (.symm hc)
      · exact Or.inr ⟨r2, r1⟩
    | trans h1 h2 ih1 ih2 =>
      rcases ih1 with c1 | ⟨r1, r2⟩
      · rcases ih2 with c2 | ⟨r2, r3⟩
        · exact Or.inl (.trans c1 c2)
        · exact Or.inr ⟨reach_of_conn_reach c1 r2, r3⟩
      · rcases ih2 with c2 | ⟨r2', r3⟩
        · exact Or.inr ⟨r1, reach_of_conn_reach (.symm c2) r2⟩
        · exact Or.inr ⟨r1, r3⟩
  · intro h
    rcases h with hc | ⟨r1, r2⟩
    · exact conn_mono (by omega) hc
    · exact .trans (reach_conn r1) (.symm (reach_conn r2))

theorem pos_div_facts {k N : Nat} (h : 0 < k / N) : 0 < N ∧ N ≤ k := by
  by_cases hN : 0 < N
  · refine ⟨hN, ?_⟩
    by_contra hc
    rw [Nat.div_eq_of_lt (by omega)] at h
    omega
  · have hz : N = 0 := by omega
    subst hz
    simp at h

/-- Bridge lemma: to extend the equivalence invariant from prefix `k` to
`k + 1` it suffices to characterise the new root relation through a join
predicate `RS`. -/
theorem equiv_extend {N : Nat} {board : Board N} {k : Nat} {g g' : List Nat}
    (RS : Nat → Prop)
    (hequiv : ∀ x y, x < k → y < k → (rootD g x = rootD g y ↔ Conn board k x y))
    (hst : ∀ x y, x < k → y < k →
      (rootD g' x = rootD g' y ↔ (rootD g x = rootD g y ∨ (RS x ∧ RS y))))
    (hk : ∀ x, x < k → (rootD g' x = rootD g' k ↔ RS x))
    (hreach : ∀ z, z < k → (reachNew board k z ↔ RS z)) :
    ∀ x y, x < k + 1 → y < k + 1 →
      (rootD g' x = rootD g' y ↔ Conn board (k + 1) x y) := by
  have hconnk : ∀ z, z < k → ¬Conn board k k z := by
    intro z hz hc
    have := conn_lt_of_ne hc (by omega)
    omega
  intro x y hx hy
  rw [conn_succ_iff]
  by_cases hxk : x = k <;> by_cases hyk : y = k
  · rw [hxk, hyk]
    exact iff_of_true rfl (Or.inr ⟨reach_refl, reach_refl⟩)
  · rw [hxk]
    have hy' : y < k := by omega
    constructor
    · intro hl
      exact Or.inr ⟨reach_refl, (hreach y hy').mpr ((hk y hy').mp hl.symm)⟩
    · intro hr
      rcases hr with hc | ⟨_, ry⟩
      · exact absurd hc (hconnk y hy')
      · exact ((hk y hy').mpr ((hreach y hy').mp ry)).symm
  · rw [hyk]
    have hx' : x < k := by omega
    constructor
    · intro hl
      exact Or.inr ⟨(hreach x hx').mpr ((hk x hx').mp hl), reach_refl⟩
    · intro hr
      rcases hr with hc | ⟨rx, _⟩
      · exact absurd (Conn.symm hc) (hconnk x hx')
      · exact (hk x hx').mpr ((hreach x hx').mp rx)
  · have hx' : x < k := by omega
    have hy' : y < k := by omega
    rw [hst x y hx' hy', hequiv x y hx' hy']
    constructor
    · intro hl
      rcases hl with hc | ⟨rx, ry⟩
      · exact Or.inl hc
      · exact Or.inr ⟨(hreach x hx').mpr rx, (hreach y hy').mpr ry⟩
    · intro hr
      rcases hr with hc | ⟨rx, ry⟩
      · exact Or.inl hc
      · exact Or.inr ⟨(hreach x hx').mp rx, (hreach y hy').mp ry⟩

theorem groupStep_ff {N : Nat} {board : Board N} {g : List Nat} {p : Nat}
    (h1 : matches_left board p = false) (h2 : matches_top board p = false) :
    groupStep board g p = add_to_group g p p := by
  unfold groupStep
  rw [h1, h2]

theorem groupStep_tf {N : Nat} {board : Board N} {g : List Nat} {p : Nat}
    (h1 : matches_left board p = true) (h2 : matches_top board p = false) :
    groupStep board g p =
      add_to_group (find_group_root g ((posLeft N p).getD 0)).2 p
        (find_group_root g ((posLeft N p).getD 0)).1 := by
  unfold groupStep
  rw [h1, h2]

theorem groupStep_ft {N : Nat} {board : Board N} {g : List Nat} {p : Nat}
    (h1 : matches_left board p = false) (h2 : matches_top board p = true) :
    groupStep board g p =
      add_to_group (find_group_root g ((posUp N p).getD 0)).2 p
        (find_group_root g ((posUp N p).getD 0)).1 := by
  unfold groupStep
  rw [h1, h2]

theorem groupStep_tt {N : Nat} {board : Board N} {g : List Nat} {p : Nat}
    (h1 : matches_left board p = true) (h2 : matches_top board p = true) :
    groupStep board g p =
      (let fl := find_group_root g ((posLeft N p).getD 0)
       let fu := find_group_root fl.2 ((posUp N p).getD 0)
       if fl.1 = fu.1 then add_to_group fu.2 p fl.1
       else
         let m := merge_groups fu.2 fl.1 fu.1
         add_to_group m.2 p m.1) := by
  unfold groupStep
  rw [h1, h2]

theorem groupStep_inv {N : Nat} {board : Board N} {k : Nat} {g : List Nat}
    (hk : k < N * N) (h : StepInv board k g) :
    StepInv board (k + 1) (groupStep board g k) := by
  obtain ⟨hlen, hA, hequiv⟩ := h
  have hkl : k < g.length := by omega
  cases hml : matches_left board k with
  | false =>
    cases hmt : matches_top board k with
    | false =>
      rw [groupStep_ff hml hmt]
      have hA' : InvA (add_to_group g k k) := InvA_set hA (le_refl k)
      have hxlt : ∀ x, x < k → rootD (add_to_group g k k) x = rootD g x :=
        fun x hx => rootD_set_lt hA (le_refl k) x hx
      have hrk : rootD (add_to_group g k k) k = k :=
        rootD_of_entry hA' (getD_set_self _ _ _ _ hkl)
      refine ⟨by simp [add_to_group, hlen], hA', ?_⟩
      apply equiv_extend (fun _ => False) hequiv
      · intro x y hx' hy'
        rw [hxlt x hx', hxlt y hy']
        simp
      · intro x hx'
        rw [hxlt x hx', hrk]
        have := rootD_le hA x
        exact iff_of_false (by omega) id
      · intro z hz
        simp only [reachNew, hml, hmt]
        simp only [Bool.false_eq_true, false_and, or_false, false_or]
        exact iff_of_false (by omega) id
    | true =>
      rw [groupStep_ft hml hmt]
      obtain ⟨hx2, hvt⟩ := matches_top_iff.mp hmt
      obtain ⟨hN, hNk⟩ := pos_div_facts hx2
      have hupt : (posUp N k).getD 0 = k - N := by
        rw [posUp_eq_some.mpr ⟨hx2, rfl⟩]
        rfl
      rw [hupt]
      have hkN : k - N < k := by omega
      obtain ⟨f1, f2, f3, f4, f5⟩ := find_spec hA (show k - N < g.length by omega)
      have hrle : rootD g (k - N) ≤ k - N := rootD_le hA _
      have hA' : InvA (add_to_group (find_group_root g (k - N)).2 k
          (find_group_root g (k - N)).1) := by
        apply InvA_set f3
        rw [f1]
        omega
      have hxlt : ∀ x, x < k →
          rootD (add_to_group (find_group_root g (k - N)).2 k
            (find_group_root g (k - N)).1) x = rootD g x := by
        intro x hx
        unfold add_to_group
        rw [rootD_set_lt f3 (by rw [f1]; omega) x hx, f4]
      have hrk : rootD (add_to_group (find_group_root g (k - N)).2 k
          (find_group_root g (k - N)).1) k = rootD g (k - N) := by
        have hkl2 : k < (find_group_root g (k - N)).2.length := by omega
        have hentry : (add_to_group (find_group_root g (k - N)).2 k
            (find_group_root g (k - N)).1).getD k 0 = (find_group_root g (k - N)).1 :=
          getD_set_self _ _ _ _ hkl2
        have hne : (find_group_root g (k - N)).1 ≠ k := by
          rw [f1]
          omega
        have hlt2 : (find_group_root g (k - N)).1 < k := by
          rw [f1]
          omega
        rw [rootD_unfold hA' k, hentry, if_neg hne, hxlt _ hlt2, f1, rootD_idem hA]
      refine ⟨by simp [add_to_group, f2, hlen], hA', ?_⟩
      apply equiv_extend (fun z => rootD g z = rootD g (k - N)) hequiv
      · intro x y hx' hy'
        rw [hxlt x hx', hxlt y hy']
        constructor
        · exact Or.inl
        · intro hor
          rcases hor with hc | ⟨cx, cy⟩
          · exact hc
          · omega
      · intro x hx'
        rw [hxlt x hx', hrk]
      · intro z hz
        simp only [reachNew, hml, hmt]
        simp only [Bool.false_eq_true, false_and, false_or, true_and]
        constructor
        · rintro (rfl | hc)
          · omega
          · exact (hequiv z (k - N) hz (by omega)).mpr hc
        · intro hc
          exact Or.inr ((hequiv z (k - N) hz (by omega)).mp hc)
  | true =>
    obtain ⟨hx1, hvl⟩ := matches_left_iff.mp hml
    have hk0 : 0 < k := by
      have := Nat.mod_le k N
      omega
    have hlft : (posLeft N k).getD 0 = k - 1 := by
      rw [posLeft_eq_some.mpr ⟨hx1, rfl⟩]
      rfl
    cases hmt : matches_top board k with
    | false =>
      rw [groupStep_tf hml hmt, hlft]
      obtain ⟨f1, f2, f3, f4, f5⟩ := find_spec hA (show k - 1 < g.length by omega)
      have hrle : rootD g (k - 1) ≤ k - 1 := rootD_le hA _
      have hA' : InvA (add_to_group (find_group_root g (k - 1)).2 k
          (find_group_root g (k - 1)).1) := by
        apply InvA_set f3
        rw [f1]
        omega
      have hxlt : ∀ x, x < k →
          rootD (add_to_group (find_group_root g (k - 1)).2 k
            (find_group_root g (k - 1)).1) x = rootD g x := by
        intro x hx
        unfold add_to_group
        rw [rootD_set_lt f3 (by rw [f1]; omega) x hx, f4]
      have hrk : rootD (add_to_group (find_group_root g (k - 1)).2 k
          (find_group_root g (k - 1)).1) k = rootD g (k - 1) := by
        have hkl2 : k < (find_group_root g (k - 1)).2.length := by omega
        have hentry : (add_to_group (find_group_root g (k - 1)).2 k
            (find_group_root g (k - 1)).1).getD k 0 = (find_group_root g (k - 1)).1 :=
          getD_set_self _ _ _ _ hkl2
        have hne : (find_group_root g (k - 1)).1 ≠ k := by
          rw [f1]
          omega
        have hlt2 : (find_group_root g (k - 1)).1 < k := by
          rw [f1]
          omega
        rw [rootD_unfold hA' k, hentry, if_neg hne, hxlt _ hlt2, f1, rootD_idem hA]
      refine ⟨by simp [add_to_group, f2, hlen], hA', ?_⟩
      apply equiv_extend (fun z => rootD g z = rootD g (k - 1)) hequiv
      · intro x y hx' hy'
        rw [hxlt x hx', hxlt y hy']
        constructor
        · exact Or.inl
        · intro hor
          rcases hor with hc | ⟨cx, cy⟩
          · exact hc
          · omega
      · intro x hx'
        rw [hxlt x hx', hrk]
      · intro z hz
        simp only [reachNew, hml, hmt]
        simp only [Bool.false_eq_true, false_and, or_false, true_and]
        constructor
        · rintro (rfl | hc)
          · omega
          · exact (hequiv z (k - 1) hz (by omega)).mpr hc
        · intro hc
          exact Or.inr ((hequiv z (k - 1) hz (by omega)).mp hc)
    | true =>
      rw [groupStep_tt hml hmt, hlft]
      obtain ⟨hx2, hvt⟩ := matches_top_iff.mp hmt
      obtain ⟨hN, hNk⟩ := pos_div_facts hx2
      have hupt : (posUp N k).getD 0 = k - N := by
        rw [posUp_eq_some.mpr ⟨hx2, rfl⟩]
        rfl
      rw [hupt]
      obtain ⟨f1, f2, f3, f4, f5⟩ := find_spec hA (show k - 1 < g.length by omega)
      obtain ⟨e1, e2, e3, e4, e5⟩ :=
        find_spec f3 (show k - N < (find_group_root g (k - 1)).2.length by omega)
      have hrt1 : (find_group_root (find_group_root g (k - 1)).2 (k - N)).1 =
          rootD g (k - N) := by
        rw [e1, f4]
      have hg2len : (find_group_root (find_group_root g (k - 1)).2 (k - N)).2.length =
          N * N := by
        rw [e2, f2, hlen]
      have hg2root : ∀ x,
          rootD (find_group_root (find_group_root g (k - 1)).2 (k - N)).2 x =
            rootD g x := by
        intro x
        rw [e4, f4]
      have hrle1 : rootD g (k - 1) ≤ k - 1 := rootD_le hA _
      have hrle2 : rootD g (k - N) ≤ k - N := rootD_le hA _
      show StepInv board (k + 1) _
      dsimp only
      rw [f1, hrt1]
      by_cases hrr : rootD g (k - 1) = rootD g (k - N)
      · rw [if_pos hrr]
        have hA' : InvA (add_to_group
            (find_group_root (find_group_root g (k - 1)).2 (k - N)).2 k
            (rootD g (k - 1))) := InvA_set e3 (by omega)
        have hxlt : ∀ x, x < k → rootD (add_to_group
            (find_group_root (find_group_root g (k - 1)).2 (k - N)).2 k
            (rootD g (k - 1))) x = rootD g x := by
          intro x hx
          unfold add_to_group
          rw [rootD_set_lt e3 (by omega) x hx, hg2root]
        have hrk : rootD (add_to_group
            (find_group_root (find_group_root g (k - 1)).2 (k - N)).2 k
            (rootD g (k - 1))) k = rootD g (k - 1) := by
          have hkl2 : k <
              (find_group_root (find_group_root g (k - 1)).2 (k - N)).2.length := by
            omega
          have hentry : (add_to_group
              (find_group_root (find_group_root g (k - 1)).2 (k - N)).2 k
              (rootD g (k - 1))).getD k 0 = rootD g (k - 1) :=
            getD_set_self _ _ _ _ hkl2
          rw [rootD_unfold hA' k, hentry, if_neg (by omega), hxlt _ (by omega),
            rootD_idem hA]
        refine ⟨by simp [add_to_group, hg2len], hA', ?_⟩
        apply equiv_extend (fun z => rootD g z = rootD g (k - 1)) hequiv
        · intro x y hx' hy'
          rw [hxlt x hx', hxlt y hy']
          constructor
          · exact Or.inl
          · intro hor
            rcases hor with hc | ⟨cx, cy⟩
            · exact hc
            · omega
        · intro x hx'
          rw [hxlt x hx', hrk]
        · intro z hz
          simp only [reachNew, hml, hmt, true_and]
          constructor
          · rintro (rfl | hc | hc)
            · omega
            · exact (hequiv z (k - 1) hz (by omega)).mpr hc
            · have := (hequiv z (k - N) hz (by omega)).mpr hc
              omega
          · intro hc
            exact Or.inr (Or.inl ((hequiv z (k - 1) hz (by omega)).mp hc))
      · rw [if_neg hrr]
        have hrl_entry : (find_group_root (find_group_root g (k - 1)).2 (k - N)).2.getD
            (rootD g (k - 1)) 0 = rootD g (k - 1) := by
          have h1 := rootD_entry_self e3 (k - 1)
          rw [hg2root (k - 1)] at h1
          exact h1
        have hrt_entry : (find_group_root (find_group_root g (k - 1)).2 (k - N)).2.getD
            (rootD g (k - N)) 0 = rootD g (k - N) := by
          have h1 := rootD_entry_self e3 (k - N)
          rw [hg2root (k - N)] at h1
          exact h1
        obtain ⟨m1, m2, m3, m4⟩ := merge_spec e3 hrl_entry hrt_entry hrr
          (by omega) (by omega)
        have hmin_lt : min (rootD g (k - 1)) (rootD g (k - N)) < k := by omega
        have hA' : InvA (add_to_group (merge_groups
            (find_group_root (find_group_root g (k - 1)).2 (k - N)).2
            (rootD g (k - 1)) (rootD g (k - N))).2 k
            (merge_groups (find_group_root (find_group_root g (k - 1)).2 (k - N)).2
              (rootD g (k - 1)) (rootD g (k - N))).1) := by
          apply InvA_set m3
          rw [m1]
          omega
        show StepInv board (k + 1) _
        have hxlt : ∀ x, x < k → rootD (add_to_group (merge_groups
            (find_group_root (find_group_root g (k - 1)).2 (k - N)).2
            (rootD g (k - 1)) (rootD g (k - N))).2 k
            (merge_groups (find_group_root (find_group_root g (k - 1)).2 (k - N)).2
              (rootD g (k - 1)) (rootD g (k - N))).1) x =
            (if rootD g x = max (rootD g (k - 1)) (rootD g (k - N))
              then min (rootD g (k - 1)) (rootD g (k - N)) else rootD g x) := by
          intro x hx
          unfold add_to_group
          rw [rootD_set_lt m3 (by rw [m1]; omega) x hx, m4, hg2root]
        have hrootmin : rootD g (min (rootD g (k - 1)) (rootD g (k - N))) =
            min (rootD g (k - 1)) (rootD g (k - N)) := by
          rcases le_total (rootD g (k - 1)) (rootD g (k - N)) with hle | hle
          · rw [Nat.min_eq_left hle, rootD_idem hA]
          · rw [Nat.min_eq_right hle, rootD_idem hA]
        have hrk : rootD (add_to_group (merge_groups
            (find_group_root (find_group_root g (k - 1)).2 (k - N)).2
            (rootD g (k - 1)) (rootD g (k - N))).2 k
            (merge_groups (find_group_root (find_group_root g (k - 1)).2 (k - N)).2
              (rootD g (k - 1)) (rootD g (k - N))).1) k =
            min (rootD g (k - 1)) (rootD g (k - N)) := by
          have hkl2 : k < (merge_groups
              (find_group_root (find_group_root g (k - 1)).2 (k - N)).2
              (rootD g (k - 1)) (rootD g (k - N))).2.length := by
            omega
          have hentry : (add_to_group (merge_groups
              (find_group_root (find_group_root g (k - 1)).2 (k - N)).2
              (rootD g (k - 1)) (rootD g (k - N))).2 k (merge_groups
              (find_group_root (find_group_root g (k - 1)).2 (k - N)).2
              (rootD g (k - 1)) (rootD g (k - N))).1).getD k 0 = (merge_groups
              (find_group_root (find_group_root g (k - 1)).2 (k - N)).2
              (rootD g (k - 1)) (rootD g (k - N))).1 :=
            getD_set_self _ _ _ _ hkl2
          have hne : (merge_groups
              (find_group_root (find_group_root g (k - 1)).2 (k - N)).2
              (rootD g (k - 1)) (rootD g (k - N))).1 ≠ k := by
            rw [m1]
            omega
          have hlt2 : (merge_groups
              (find_group_root (find_group_root g (k - 1)).2 (k - N)).2
              (rootD g (k - 1)) (rootD g (k - N))).1 < k := by
            rw [m1]
            omega
          rw [rootD_unfold hA' k, hentry, if_neg hne, hxlt _ hlt2, m1, hrootmin]
          split_ifs <;> rfl
        refine ⟨by simp [add_to_group, m2, hg2len], hA', ?_⟩
        apply equiv_extend
          (fun z => rootD g z = rootD g (k - 1) ∨ rootD g z = rootD g (k - N))
          hequiv
        · intro x y hx' hy'
          rw [hxlt x hx', hxlt y hy']
          rcases le_total (rootD g (k - 1)) (rootD g (k - N)) with hle | hle
          · rw [Nat.min_eq_left hle, Nat.max_eq_right hle]
            split_ifs <;> omega
          · rw [Nat.min_eq_right hle, Nat.max_eq_left hle]
            split_ifs <;> omega
        · intro x hx'
          rw [hxlt x hx', hrk]
          rcases le_total (rootD g (k - 1)) (rootD g (k - N)) with hle | hle
          · rw [Nat.min_eq_left hle, Nat.max_eq_right hle]
            split_ifs <;> omega
          · rw [Nat.min_eq_right hle, Nat.max_eq_left hle]
            split_ifs <;> omega
        · intro z hz
          simp only [reachNew, hml, hmt, true_and]
          constructor
          · rintro (rfl | hc | hc)
            · omega
            · exact Or.inl ((hequiv z (k - 1) hz (by omega)).mpr hc)
            · exact Or.inr ((hequiv z (k - N) hz (by omega)).mpr hc)
          · rintro (hc | hc)
            · exact Or.inr (Or.inl ((hequiv z (k - 1) hz (by omega)).mp hc))
            · exact Or.inr (Or.inr ((hequiv z (k - N) hz (by omega)).mp hc))

/-- Generic invariant preservation along a fold over `List.range n`. -/
theorem foldl_range_inv {α : Type} {P : Nat → α → Prop} {f : α → Nat → α} :
    ∀ (n : Nat) (a : α), P 0 a → (∀ k b, k < n → P k b → P (k + 1) (f b k)) →
      P n ((List.range n).foldl f a) := by
  intro n
  induction n with
  | zero =>
    intro a h0 _
    simpa using h0
  | succ n ih =>
    intro a h0 hstep
    rw [List.range_succ, List.foldl_append]
    simp only [List.foldl_cons, List.foldl_nil]
    exact hstep n _ (Nat.lt_succ_self n)
      (ih a h0 (fun k b hk hP => hstep k b (by omega) hP))

theorem getD_replicate (n i d : Nat) : (List.replicate n d).getD i d = d := by
  rw [List.getD_eq_getElem?_getD, List.getElem?_replicate]
  split <;> rfl

/-- The construction pass satisfies the grouping invariant over the whole
board. -/
theorem groupPass_inv {N : Nat} (board : Board N) :
    StepInv board (N * N) (groupPass board) := by
  unfold groupPass
  apply foldl_range_inv
  · refine ⟨by simp, ?_, ?_⟩
    · intro i
      rw [getD_replicate]
      omega
    · intro x y hx hy
      omega
  · intro k b hk hP
    exact groupStep_inv hk hP

theorem numRootsBelow_succ (g : List Nat) (k : Nat) :
    numRootsBelow g (k + 1) =
      numRootsBelow g k + (if g.getD k 0 = k then 1 else 0) := by
  unfold numRootsBelow
  rw [List.range_succ, List.filter_append, List.length_append]
  simp only [List.filter_cons, List.filter_nil]
  split
  · rename_i hc
    rw [if_pos (by simpa using hc)]
    rfl
  · rename_i hc
    rw [if_neg (by simpa using hc)]
    rfl

theorem numRootsBelow_mono (g : List Nat) {k k' : Nat} (h : k ≤ k') :
    numRootsBelow g k ≤ numRootsBelow g k' := by
  induction k' with
  | zero =>
    have : k = 0 := by omega
    subst this
    exact le_refl _
  | succ k' ih =>
    by_cases hk : k = k' + 1
    · subst hk
      exact le_refl _
    · have := ih (by omega)
      rw [numRootsBelow_succ]
      split_ifs <;> omega

theorem numRootsBelow_lt_of_root {g : List Nat} {r s : Nat} (hrs : r < s)
    (hr : g.getD r 0 = r) : numRootsBelow g r < numRootsBelow g s := by
  have h1 : numRootsBelow g (r + 1) = numRootsBelow g r + 1 := by
    rw [numRootsBelow_succ, if_pos hr]
  have h2 := numRootsBelow_mono g (show r + 1 ≤ s by omega)
  omega

/-- On root entries, `numRootsBelow` is strictly monotone, hence injective. -/
theorem numRootsBelow_root_lt_iff {g : List Nat} {r s : Nat}
    (hr : g.getD r 0 = r) (hs : g.getD s 0 = s) :
    r < s ↔ numRootsBelow g r < numRootsBelow g s := by
  constructor
  · intro h
    exact numRootsBelow_lt_of_root h hr
  · intro h
    by_contra hc
    rcases Nat.lt_or_ge s r with hlt | hge
    · have := numRootsBelow_lt_of_root hlt hs
      omega
    · have : s = r := by omega
      subst this
      omega

theorem numRootsBelow_root_inj {g : List Nat} {r s : Nat}
    (hr : g.getD r 0 = r) (hs : g.getD s 0 = s)
    (h : numRootsBelow g r = numRootsBelow g s) : r = s := by
  rcases Nat.lt_trichotomy r s with hlt | heq | hgt
  · have := numRootsBelow_lt_of_root hlt hr
    omega
  · exact heq
  · have := numRootsBelow_lt_of_root hgt hs
    omega

theorem exists_root_of_lt {g : List Nat} :
    ∀ (k m : Nat), m < numRootsBelow g k →
      ∃ r, r < k ∧ g.getD r 0 = r ∧ numRootsBelow g r = m := by
  intro k
  induction k with
  | zero =>
    intro m hm
    simp [numRootsBelow] at hm
  | succ k ih =>
    intro m hm
    rw [numRootsBelow_succ] at hm
    by_cases hmk : m < numRootsBelow g k
    · obtain ⟨r, h1, h2, h3⟩ := ih m hmk
      exact ⟨r, by omega, h2, h3⟩
    · split_ifs at hm with hroot
      · refine ⟨k, by omega, hroot, by omega⟩
      · omega

theorem finalizeStep_eq (st : List Nat × Nat × List Nat) (index : Nat) :
    finalizeStep st index =
      if (find_group_root st.2.2 index).1 = index then
        (st.1.set index st.2.1, st.2.1 + 1, (find_group_root st.2.2 index).2)
      else
        (st.1.set index (st.1.getD (find_group_root st.2.2 index).1 0), st.2.1,
          (find_group_root st.2.2 index).2) := rfl

/-- Specification of `finalize`: it assigns to each position the rank of its
root among all roots, in row-major order, and counts the roots. -/
theorem finalize_spec {NN : Nat} {g0 : List Nat} (hA0 : InvA g0)
    (hlen0 : g0.length = NN) :
    (finalize NN g0).num_groups = numRootsBelow g0 NN ∧
    (finalize NN g0).pos_to_group.length = NN ∧
    ∀ i, i < NN → (finalize NN g0).pos_to_group.getD i 0 =
      numRootsBelow g0 (rootD g0 i) := by
  have main := foldl_range_inv
    (P := fun k st =>
      st.2.2.length = NN ∧ InvA st.2.2 ∧ (∀ x, rootD st.2.2 x = rootD g0 x) ∧
      (∀ x, st.2.2.getD x 0 = x ↔ g0.getD x 0 = x) ∧
      st.1.length = NN ∧ st.2.1 = numRootsBelow g0 k ∧
      ∀ i, i < k → st.1.getD i 0 = numRootsBelow g0 (rootD g0 i))
    (f := finalizeStep) NN (List.replicate NN 0, 0, g0)
    (by
      refine ⟨hlen0, hA0, fun x => rfl, fun x => Iff.rfl, by simp, ?_, ?_⟩
      · simp [numRootsBelow]
      · intro i hi
        omega)
    (by
      intro k st hk hP
      obtain ⟨h1, h2, h3, h4, h5, h6, h7⟩ := hP
      have hkl : k < st.2.2.length := by omega
      obtain ⟨f1, f2, f3, f4, f5⟩ := find_spec h2 hkl
      rw [finalizeStep_eq]
      by_cases hroot : rootD g0 k = k
      · rw [if_pos (by rw [f1, h3]; exact hroot)]
        refine ⟨?_, f3, fun x => by rw [f4, h3], fun x => (f5 x).trans (h4 x),
          by simp [h5], ?_, ?_⟩
        · show (find_group_root st.2.2 k).2.length = NN
          omega
        · show st.2.1 + 1 = _
          rw [numRootsBelow_succ, if_pos (entry_of_rootD_self hA0 hroot), h6]
        · intro i hi
          show (st.1.set k st.2.1).getD i 0 = _
          by_cases hik : i = k
          · subst hik
            rw [getD_set_self _ _ _ _ (by omega : i < st.1.length), h6, hroot]
          · rw [getD_set_ne _ _ _ (fun hh => hik hh.symm)]
            exact h7 i (by omega)
      · rw [if_neg (by rw [f1, h3]; exact hroot)]
        have hrlt : rootD g0 k < k := lt_of_le_of_ne (rootD_le hA0 k) hroot
        refine ⟨?_, f3, fun x => by rw [f4, h3], fun x => (f5 x).trans (h4 x),
          by simp [h5], ?_, ?_⟩
        · show (find_group_root st.2.2 k).2.length = NN
          omega
        · show st.2.1 = _
          rw [numRootsBelow_succ,
            if_neg (fun hc => hroot (rootD_of_entry hA0 hc)), h6]
          omega
        · intro i hi
          show (st.1.set k (st.1.getD (find_group_root st.2.2 k).1 0)).getD i 0 = _
          by_cases hik : i = k
          · subst hik
            rw [getD_set_self _ _ _ _ (by omega : i < st.1.length), f1, h3,
              h7 _ hrlt, rootD_idem hA0]
          · rw [getD_set_ne _ _ _ (fun hh => hik hh.symm)]
            exact h7 i (by omega))
  obtain ⟨_, _, _, _, m5, m6, m7⟩ := main
  exact ⟨m6, m5, m7⟩

theorem headD_append_left {α : Type} (l1 l2 : List α) (d : α) (h : l1 ≠ []) :
    (l1 ++ l2).headD d = l1.headD d := by
  cases l1 with
  | nil => exact absurd rfl h
  | cons a t => rfl

theorem filter_range_headD {n r d : Nat} {q : Nat → Bool}
    (hr : r < n) (hq : q r = true) (hmin : ∀ i, i < r → q i = false) :
    ((List.range n).filter q).headD d = r := by
  induction n with
  | zero => omega
  | succ n ih =>
    rw [List.range_succ, List.filter_append]
    by_cases hrn : r < n
    · have hne : (List.range n).filter q ≠ [] := by
        intro hc
        have hmem : r ∈ (List.range n).filter q :=
          List.mem_filter.mpr ⟨List.mem_range.mpr hrn, hq⟩
        rw [hc] at hmem
        exact absurd hmem (List.not_mem_nil r)
      rw [headD_append_left _ _ _ hne]
      exact ih hrn
    · have hrn' : r = n := by omega
      subst hrn'
      have hempty : (List.range r).filter q = [] := by
        rw [List.filter_eq_nil_iff]
        intro a ha
        have := hmin a (List.mem_range.mp ha)
        simp [this]
      rw [hempty]
      simp only [List.nil_append, List.filter_cons, hq, if_true, List.filter_nil]
      rfl

/-- C2: on every board, `group_connected_stones` assigns two positions the
same group id iff they are connected by a chain of 4-adjacent cells all
holding the same tri-state value (empty cells participate like stones). -/
theorem claim_C2 {N : Nat} (board : Board N) (p q : Nat)
    (hp : p < N * N) (hq : q < N * N) :
    ((group_connected_stones board).group_at p =
      (group_connected_stones board).group_at q ↔ Conn board (N * N) p q) := by
  obtain ⟨hlen, hA, hequiv⟩ := groupPass_inv board
  obtain ⟨s1, s2, s3⟩ := finalize_spec hA hlen
  show (finalize (N * N) (groupPass board)).pos_to_group.getD p 0 =
    (finalize (N * N) (groupPass board)).pos_to_group.getD q 0 ↔ _
  rw [s3 p hp, s3 q hq]
  constructor
  · intro h
    exact (hequiv p q hp hq).mp
      (numRootsBelow_root_inj (rootD_entry_self hA p) (rootD_entry_self hA q) h)
  · intro h
    rw [(hequiv p q hp hq).mpr h]

/-- Witness for C2 at a concrete input. -/
theorem claim_C2_witness :
    ((0 : Nat) < 3 * 3 ∧ (4 : Nat) < 3 * 3) ∧
      ((group_connected_stones (Board.new 3)).group_at 0 =
        (group_connected_stones (Board.new 3)).group_at 4 ↔
        Conn (Board.new 3) (3 * 3) 0 4) :=
  ⟨⟨by decide, by decide⟩, claim_C2 (Board.new 3) 0 4 (by decide) (by decide)⟩

/-- C7: the ids produced by the finalization sweep are exactly the
consecutive integers `[0, G)` where `G` counts the connected components
(ids classify connectivity), and `id g < id h` exactly when the first
row-major position of group `g` precedes that of group `h`. -/
theorem claim_C7 {N : Nat} (board : Board N) :
    (∀ p q, p < N * N → q < N * N →
      ((group_connected_stones board).group_at p =
        (group_connected_stones board).group_at q ↔ Conn board (N * N) p q)) ∧
    (∀ m, (∃ p, p < N * N ∧ (group_connected_stones board).group_at p = m) ↔
        m < (group_connected_stones board).num_groups) ∧
    (∀ a b, a < (group_connected_stones board).num_groups →
      b < (group_connected_stones board).num_groups →
      (a < b ↔ firstMemberOf (group_connected_stones board) (N * N) a <
        firstMemberOf (group_connected_stones board) (N * N) b)) := by
  obtain ⟨hlen, hA, hequiv⟩ := groupPass_inv board
  obtain ⟨s1, s2, s3⟩ := finalize_spec hA hlen
  have hgat : ∀ p, p < N * N → (group_connected_stones board).group_at p =
      numRootsBelow (groupPass board) (rootD (groupPass board) p) := by
    intro p hp
    exact s3 p hp
  have s1' : (group_connected_stones board).num_groups =
      numRootsBelow (groupPass board) (N * N) := s1
  refine ⟨?_, ?_, ?_⟩
  · intro p q hp hq
    rw [hgat p hp, hgat q hq]
    constructor
    · intro h
      exact (hequiv p q hp hq).mp
        (numRootsBelow_root_inj (rootD_entry_self hA p) (rootD_entry_self hA q) h)
    · intro h
      rw [(hequiv p q hp hq).mpr h]
  · intro m
    constructor
    · rintro ⟨p, hp, hgid⟩
      rw [s1', ← hgid, hgat p hp]
      exact numRootsBelow_lt_of_root (lt_of_le_of_lt (rootD_le hA p) hp)
        (rootD_entry_self hA p)
    · intro hm
      rw [s1'] at hm
      obtain ⟨r, hr1, hr2, hr3⟩ := exists_root_of_lt (N * N) m hm
      refine ⟨r, hr1, ?_⟩
      rw [hgat r hr1, rootD_of_entry hA hr2, hr3]
  · have hfm : ∀ a r, r < N * N → (groupPass board).getD r 0 = r →
        numRootsBelow (groupPass board) r = a →
        firstMemberOf (group_connected_stones board) (N * N) a = r := by
      intro a r hrlt hroot hnum
      unfold firstMemberOf
      apply filter_range_headD hrlt
      · simp only [decide_eq_true_eq]
        rw [hgat r hrlt, rootD_of_entry hA hroot, hnum]
      · intro i hir
        simp only [decide_eq_false_iff_not]
        intro hc
        have hilt : i < N * N := by omega
        rw [hgat i hilt] at hc
        have heq := numRootsBelow_root_inj (rootD_entry_self hA i) hroot
          (hc.trans hnum.symm)
        have hle := rootD_le hA i
        omega
    intro a b ha hb
    rw [s1'] at ha hb
    obtain ⟨ra, hra1, hra2, hra3⟩ := exists_root_of_lt _ a ha
    obtain ⟨rb, hrb1, hrb2, hrb3⟩ := exists_root_of_lt _ b hb
    rw [hfm a ra hra1 hra2 hra3, hfm b rb hrb1 hrb2 hrb3, ← hra3, ← hrb3]
    exact (numRootsBelow_root_lt_iff hra2 hrb2).symm


theorem mem_smallInsert {s : List Nat} {x y : Nat} :
    y ∈ smallInsert s x ↔ y ∈ s ∨ y = x := by
  unfold smallInsert
  split
  · rename_i h
    constructor
    · exact Or.inl
    · rintro (hy | rfl)
      · exact hy
      · exact h
  · simp

theorem nodup_smallInsert {s : List Nat} {x : Nat} (h : s.Nodup) :
    (smallInsert s x).Nodup := by
  unfold smallInsert
  split
  · exact h
  · rename_i hx
    simpa [List.nodup_append] using ⟨h, fun hmem => hx hmem⟩

theorem libertySet_nodup {N : Nat} (gids : List Nat) (pos : Nat) :
    (libertySet (N := N) gids pos).Nodup := by
  unfold libertySet
  cases posLeft N pos <;> cases posUp N pos <;>
    cases posRight N pos <;> cases posDown N pos <;>
    · dsimp only
      repeat apply nodup_smallInsert
      exact List.nodup_nil

theorem mem_foldl_smallInsert {L : List Nat} :
    ∀ {s : List Nat} {y : Nat}, y ∈ L.foldl smallInsert s ↔ y ∈ s ∨ y ∈ L := by
  induction L with
  | nil => simp
  | cons a t ih =>
    intro s y
    simp only [List.foldl_cons, ih, mem_smallInsert, List.mem_cons]
    tauto

theorem libertySet_eq_fold {N : Nat} (gids : List Nat) (pos : Nat) :
    libertySet (N := N) gids pos =
      (gids.getD pos 0 :: (neighborsOf N pos).map (fun n => gids.getD n 0)).foldl
        smallInsert [] := by
  unfold libertySet neighborsOf
  cases posLeft N pos <;> cases posUp N pos <;>
    cases posRight N pos <;> cases posDown N pos <;> rfl

theorem mem_libertySet {N : Nat} {gids : List Nat} {pos m : Nat} :
    m ∈ libertySet (N := N) gids pos ↔
      m = gids.getD pos 0 ∨ ∃ n ∈ neighborsOf N pos, gids.getD n 0 = m := by
  rw [libertySet_eq_fold, mem_foldl_smallInsert]
  simp [List.mem_map]


theorem mem_option_toList {o : Option Nat} {n : Nat} : n ∈ o.toList ↔ o = some n := by
  cases o <;> simp [eq_comm]

/-- All existing neighbours of an in-range position are in range. -/
theorem neighborsOf_lt {N p n : Nat} (hp : p < N * N) (hn : n ∈ neighborsOf N p) :
    n < N * N := by
  unfold neighborsOf at hn
  have hN : 0 < N := by
    by_contra hc
    have : N = 0 := by omega
    subst this
    omega
  have hdm := Nat.div_add_mod p N
  have hm : p % N < N := Nat.mod_lt _ hN
  have hdivlt : p / N < N := by
    rw [Nat.div_lt_iff_lt_mul hN]
    omega
  simp only [List.mem_append, mem_option_toList] at hn
  rcases hn with ((h | h) | h) | h
  · rw [posLeft_eq_some] at h
    omega
  · rw [posUp_eq_some] at h
    omega
  · rw [posRight_eq_some] at h
    obtain ⟨h1, h2⟩ := h
    have hle : N * (p / N + 1) ≤ N * N := Nat.mul_le_mul_left N (by omega)
    have hexp : N * (p / N + 1) = N * (p / N) + N := by ring
    omega
  · rw [posDown_eq_some] at h
    obtain ⟨h1, h2⟩ := h
    have hle : N * (p / N + 1 + 1) ≤ N * N := Nat.mul_le_mul_left N (by omega)
    have hexp : N * (p / N + 1 + 1) = N * (p / N) + N + N := by ring
    omega

theorem filter_range_succ_len (q : Nat → Bool) (k : Nat) :
    ((List.range (k + 1)).filter q).length =
      ((List.range k).filter q).length + (if q k = true then 1 else 0) := by
  rw [List.range_succ, List.filter_append, List.length_append]
  simp only [List.filter_cons, List.filter_nil]
  split <;> rfl

theorem libCount_succ {N : Nat} (board : Board N) (gids : List Nat) (m k : Nat) :
    libCount board gids m (k + 1) = libCount board gids m k +
      (if board.get k = none ∧ m ∈ libertySet (N := N) gids k then 1 else 0) := by
  unfold libCount
  rw [filter_range_succ_len]
  by_cases h1 : board.get k = none
  · by_cases h2 : m ∈ libertySet (N := N) gids k
    · have hcond : (decide (board.get k = none) &&
          decide (m ∈ libertySet (N := N) gids k)) = true := by
        simp [h1, h2]
      have hand : board.get k = none ∧ m ∈ libertySet (N := N) gids k := ⟨h1, h2⟩
      rw [if_pos hcond, if_pos hand]
    · have hcond : ¬((decide (board.get k = none) &&
          decide (m ∈ libertySet (N := N) gids k)) = true) := by
        simp [h2]
      have hand : ¬(board.get k = none ∧ m ∈ libertySet (N := N) gids k) := by
        intro hc
        exact h2 hc.2
      rw [if_neg hcond, if_neg hand]
  · have hcond : ¬((decide (board.get k = none) &&
        decide (m ∈ libertySet (N := N) gids k)) = true) := by
      simp [h1]
    have hand : ¬(board.get k = none ∧ m ∈ libertySet (N := N) gids k) := by
      intro hc
      exact h1 hc.1
    rw [if_neg hcond, if_neg hand]

/-- Specification of the liberty-increment fold over a duplicate-free set of
group ids. -/
theorem incr_fold_spec :
    ∀ (S : List Nat) (inf : List GroupInfo), S.Nodup →
      (S.foldl (fun inf gi =>
        match inf.getD gi (.Unknown 0) with
        | .Unknown l => inf.set gi (.Unknown (l + 1))
        | .PlayerGroup o l => inf.set gi (.PlayerGroup o (l + 1))
        | .EmptyStonesGroup => inf) inf).length = inf.length ∧
      ∀ m, m < inf.length →
        (S.foldl (fun inf gi =>
          match inf.getD gi (.Unknown 0) with
          | .Unknown l => inf.set gi (.Unknown (l + 1))
          | .PlayerGroup o l => inf.set gi (.PlayerGroup o (l + 1))
          | .EmptyStonesGroup => inf) inf).getD m (.Unknown 0) =
          if m ∈ S then bumpInfo (inf.getD m (.Unknown 0))
          else inf.getD m (.Unknown 0) := by
  intro S
  induction S with
  | nil =>
    intro inf _
    refine ⟨rfl, ?_⟩
    intro m hm
    simp
  | cons a t ih =>
    intro inf hnd
    have hnd' : t.Nodup := (List.nodup_cons.mp hnd).2
    have hat : a ∉ t := (List.nodup_cons.mp hnd).1
    simp only [List.foldl_cons]
    have hstep_len : (match inf.getD a (.Unknown 0) with
        | .Unknown l => inf.set a (.Unknown (l + 1))
        | .PlayerGroup o l => inf.set a (.PlayerGroup o (l + 1))
        | .EmptyStonesGroup => inf).length = inf.length := by
      cases hga : inf.getD a (.Unknown 0) <;> simp
    obtain ⟨ihlen, ihval⟩ := ih (match inf.getD a (.Unknown 0) with
        | .Unknown l => inf.set a (.Unknown (l + 1))
        | .PlayerGroup o l => inf.set a (.PlayerGroup o (l + 1))
        | .EmptyStonesGroup => inf) hnd'
    refine ⟨by rw [ihlen, hstep_len], ?_⟩
    intro m hm
    rw [ihval m (by rw [hstep_len]; exact hm)]
    by_cases hmt : m ∈ t
    · rw [if_pos hmt, if_pos (List.mem_cons.mpr (Or.inr hmt))]
      have hma : m ≠ a := fun hc => hat (hc ▸ hmt)
      congr 1
      cases hga : inf.getD a (.Unknown 0) with
      | PlayerGroup o l =>
        simp only [hga]
        rw [getD_set_ne _ _ _ (fun hc => hma hc.symm)]
      | EmptyStonesGroup =>
        simp only [hga]
      | Unknown l =>
        simp only [hga]
        rw [getD_set_ne _ _ _ (fun hc => hma hc.symm)]
    · rw [if_neg hmt]
      by_cases hma : m = a
      · subst hma
        rw [if_pos (List.mem_cons.mpr (Or.inl rfl))]
        cases hga : inf.getD m (.Unknown 0) with
        | PlayerGroup o l =>
          simp only [hga]
          rw [getD_set_self _ _ _ _ hm]
          rfl
        | EmptyStonesGroup =>
          simp only [hga]
          rfl
        | Unknown l =>
          simp only [hga]
          rw [getD_set_self _ _ _ _ hm]
          rfl
      · rw [if_neg (fun hc => (List.mem_cons.mp hc).elim hma hmt)]
        cases hga : inf.getD a (.Unknown 0) with
        | PlayerGroup o l =>
          simp only [hga]
          rw [getD_set_ne _ _ _ (fun hc => hma hc.symm)]
        | EmptyStonesGroup =>
          simp only [hga]
        | Unknown l =>
          simp only [hga]
          rw [getD_set_ne _ _ _ (fun hc => hma hc.symm)]


theorem libStep_occ {N : Nat} {board : Board N} {gids : List Nat}
    {info : List GroupInfo} {pos : Nat} {owner : Player}
    (h : board.get pos = some owner) :
    libStep board gids (some info) pos =
      (match info.getD (gids.getD pos 0) (.Unknown 0) with
      | .EmptyStonesGroup => some (info.set (gids.getD pos 0) (.PlayerGroup owner 0))
      | .Unknown libs => some (info.set (gids.getD pos 0) (.PlayerGroup owner libs))
      | .PlayerGroup actual _ => if owner = actual then some info else none) := by
  unfold libStep
  rw [h]

theorem libStep_empty {N : Nat} {board : Board N} {gids : List Nat}
    {info : List GroupInfo} {pos : Nat} (h : board.get pos = none) :
    libStep board gids (some info) pos =
      some ((libertySet (N := N) gids pos).foldl (fun inf gi =>
          match inf.getD gi (.Unknown 0) with
          | .Unknown l => inf.set gi (.Unknown (l + 1))
          | .PlayerGroup o l => inf.set gi (.PlayerGroup o (l + 1))
          | .EmptyStonesGroup => inf)
        (info.set (gids.getD pos 0) .EmptyStonesGroup)) := by
  unfold libStep
  rw [h]

/-- Master specification of `_liberties_and_owners_of_groups`: on any board
and grouping whose ids are bounded and whose classes are value-uniform, the
scan succeeds and computes, for each group, the owner and the number of
empty cells handing it a liberty. -/
theorem lib_fold_spec {N : Nat} (board : Board N) (gids : List Nat) (G : Nat)
    (hbound : ∀ p, p < N * N → gids.getD p 0 < G)
    (huniq : ∀ p q, p < N * N → q < N * N → gids.getD p 0 = gids.getD q 0 →
      board.get p = board.get q) :
    ∃ info, liberties_and_owners board gids G = some info ∧ info.length = G ∧
      ∀ m, m < G →
        (∀ c p, p < N * N → gids.getD p 0 = m → board.get p = some c →
          info.getD m (.Unknown 0) =
            .PlayerGroup c (libCount board gids m (N * N))) ∧
        (∀ p, p < N * N → gids.getD p 0 = m → board.get p = none →
          info.getD m (.Unknown 0) = .EmptyStonesGroup) := by
  have main := foldl_range_inv
    (P := fun k acc => ∃ info, acc = some info ∧ info.length = G ∧
      ∀ m, m < G →
        (∀ c p, p < N * N → gids.getD p 0 = m → board.get p = some c →
          (((∃ q, q < k ∧ gids.getD q 0 = m) →
              info.getD m (.Unknown 0) =
                .PlayerGroup c (libCount board gids m k)) ∧
           ((¬∃ q, q < k ∧ gids.getD q 0 = m) →
              info.getD m (.Unknown 0) = .Unknown (libCount board gids m k)))) ∧
        (∀ p, p < N * N → gids.getD p 0 = m → board.get p = none →
          (((∃ q, q < k ∧ gids.getD q 0 = m) →
              info.getD m (.Unknown 0) = .EmptyStonesGroup) ∧
           ((¬∃ q, q < k ∧ gids.getD q 0 = m) →
              ∃ l, info.getD m (.Unknown 0) = .Unknown l))))
    (f := libStep board gids) (N * N)
    (some (List.replicate G (.Unknown 0)))
    ?hinit ?hstep
  case hinit =>
    refine ⟨List.replicate G (.Unknown 0), rfl, by simp, ?_⟩
    intro m hm
    have hrep : (List.replicate G (GroupInfo.Unknown 0)).getD m (.Unknown 0) =
        .Unknown 0 := by
      rw [List.getD_eq_getElem?_getD, List.getElem?_replicate]
      split <;> rfl
    constructor
    · intro c p _ _ _
      constructor
      · rintro ⟨q, hq, _⟩
        omega
      · intro _
        rw [hrep]
        rfl
    · intro p _ _ _
      constructor
      · rintro ⟨q, hq, _⟩
        omega
      · intro _
        exact ⟨0, hrep⟩
  case hstep =>
    intro k acc hk hP
    obtain ⟨info, rfl, hlen, hinv⟩ := hP
    have hm0 : gids.getD k 0 < G := hbound k hk
    have hm0len : gids.getD k 0 < info.length := by omega
    have hmem_succ : ∀ m, gids.getD k 0 ≠ m →
        ((∃ q, q < k + 1 ∧ gids.getD q 0 = m) ↔
          (∃ q, q < k ∧ gids.getD q 0 = m)) := by
      intro m hne
      constructor
      · rintro ⟨q, hq1, hq2⟩
        by_cases hqk : q = k
        · subst hqk
          exact absurd hq2 hne
        · exact ⟨q, by omega, hq2⟩
      · rintro ⟨q, hq1, hq2⟩
        exact ⟨q, by omega, hq2⟩
    cases hocc : board.get k with
    | some owner =>
      have hlc : ∀ m, libCount board gids m (k + 1) = libCount board gids m k := by
        intro m
        rw [libCount_succ]
        rw [if_neg (fun hc => by rw [hocc] at hc; exact Option.noConfusion hc.1)]
        omega
      rw [libStep_occ hocc]
      by_cases hex : ∃ q, q < k ∧ gids.getD q 0 = gids.getD k 0
      · have hval := ((hinv _ hm0).1 owner k hk rfl hocc).1 hex
        rw [hval]
        refine ⟨info, by simp, hlen, ?_⟩
        intro m hm
        by_cases hmm : gids.getD k 0 = m
        · subst hmm
          constructor
          · intro c p hp hpm hpc
            have hco : c = owner := by
              have := huniq p k hp hk hpm
              rw [hpc, hocc] at this
              exact Option.some.inj this
            subst hco
            constructor
            · intro _
              rw [hval, hlc]
            · intro hn
              exact absurd ⟨k, by omega, rfl⟩ hn
          · intro p hp hpm hpc
            have := huniq p k hp hk hpm
            rw [hpc, hocc] at this
            exact Option.noConfusion this
        · obtain ⟨hA, hB⟩ := hinv m hm
          constructor
          · intro c p hp hpm hpc
            obtain ⟨h1, h2⟩ := hA c p hp hpm hpc
            rw [hmem_succ m hmm, hlc]
            exact ⟨h1, h2⟩
          · intro p hp hpm hpc
            obtain ⟨h1, h2⟩ := hB p hp hpm hpc
            rw [hmem_succ m hmm]
            exact ⟨h1, h2⟩
      · have hval := ((hinv _ hm0).1 owner k hk rfl hocc).2 hex
        rw [hval]
        refine ⟨info.set (gids.getD k 0)
          (.PlayerGroup owner (libCount board gids (gids.getD k 0) k)), rfl,
          by simp [hlen], ?_⟩
        intro m hm
        by_cases hmm : gids.getD k 0 = m
        · subst hmm
          constructor
          · intro c p hp hpm hpc
            have hco : c = owner := by
              have := huniq p k hp hk hpm
              rw [hpc, hocc] at this
              exact Option.some.inj this
            subst hco
            constructor
            · intro _
              rw [getD_set_self _ _ _ _ hm0len, hlc]
            · intro hn
              exact absurd ⟨k, by omega, rfl⟩ hn
          · intro p hp hpm hpc
            have := huniq p k hp hk hpm
            rw [hpc, hocc] at this
            exact Option.noConfusion this
        · obtain ⟨hA, hB⟩ := hinv m hm
          have hset : (info.set (gids.getD k 0)
              (GroupInfo.PlayerGroup owner
                (libCount board gids (gids.getD k 0) k))).getD m (.Unknown 0) =
              info.getD m (.Unknown 0) :=
            getD_set_ne _ _ _ hmm
          constructor
          · intro c p hp hpm hpc
            obtain ⟨h1, h2⟩ := hA c p hp hpm hpc
            rw [hmem_succ m hmm, hlc, hset]
            exact ⟨h1, h2⟩
          · intro p hp hpm hpc
            obtain ⟨h1, h2⟩ := hB p hp hpm hpc
            rw [hmem_succ m hmm, hset]
            exact ⟨h1, h2⟩
    | none =>
      rw [libStep_empty hocc]
      have hndS := libertySet_nodup (N := N) gids k
      obtain ⟨hilen, hival⟩ := incr_fold_spec (libertySet (N := N) gids k)
        (info.set (gids.getD k 0) .EmptyStonesGroup) hndS
      have hilen1 : (info.set (gids.getD k 0) GroupInfo.EmptyStonesGroup).length =
          G := by simp [hlen]
      have hlc : ∀ m, libCount board gids m (k + 1) = libCount board gids m k +
          (if m ∈ libertySet (N := N) gids k then 1 else 0) := by
        intro m
        rw [libCount_succ]
        by_cases hmS : m ∈ libertySet (N := N) gids k
        · rw [if_pos ⟨hocc, hmS⟩, if_pos hmS]
        · rw [if_neg (fun hc => hmS hc.2), if_neg hmS]
      refine ⟨_, rfl, by rw [hilen, hilen1], ?_⟩
      intro m hm
      have hmlen1 : m < (info.set (gids.getD k 0) GroupInfo.EmptyStonesGroup).length := by
        omega
      by_cases hmm : gids.getD k 0 = m
      · subst hmm
        constructor
        · intro c p hp hpm hpc
          have := huniq p k hp hk hpm
          rw [hpc, hocc] at this
          exact Option.noConfusion this
        · intro p hp hpm hpc
          have hesg : (info.set (gids.getD k 0)
              GroupInfo.EmptyStonesGroup).getD (gids.getD k 0) (.Unknown 0) =
              .EmptyStonesGroup := getD_set_self _ _ _ _ hm0len
          constructor
          · intro _
            rw [hival _ hmlen1, hesg]
            split <;> rfl
          · intro hn
            exact absurd ⟨k, by omega, rfl⟩ hn
      · have hset : (info.set (gids.getD k 0)
            GroupInfo.EmptyStonesGroup).getD m (.Unknown 0) =
            info.getD m (.Unknown 0) := getD_set_ne _ _ _ hmm
        obtain ⟨hA, hB⟩ := hinv m hm
        constructor
        · intro c p hp hpm hpc
          obtain ⟨h1, h2⟩ := hA c p hp hpm hpc
          rw [hmem_succ m hmm]
          constructor
          · intro hex
            rw [hival _ hmlen1, hset, h1 hex, hlc]
            by_cases hmS : m ∈ libertySet (N := N) gids k
            · rw [if_pos hmS, if_pos hmS]
              rfl
            · rw [if_neg hmS, if_neg hmS]
              rfl
          · intro hnex
            rw [hival _ hmlen1, hset, h2 hnex, hlc]
            by_cases hmS : m ∈ libertySet (N := N) gids k
            · rw [if_pos hmS, if_pos hmS]
              rfl
            · rw [if_neg hmS, if_neg hmS]
              rfl
        · intro p hp hpm hpc
          obtain ⟨h1, h2⟩ := hB p hp hpm hpc
          rw [hmem_succ m hmm]
          constructor
          · intro hex
            rw [hival _ hmlen1, hset, h1 hex]
            split <;> rfl
          · intro hnex
            obtain ⟨l, hl⟩ := h2 hnex
            rw [hival _ hmlen1, hset, hl]
            by_cases hmS : m ∈ libertySet (N := N) gids k
            · rw [if_pos hmS]
              exact ⟨l + 1, rfl⟩
            · rw [if_neg hmS]
              exact ⟨l, rfl⟩
  obtain ⟨info, heq, hlen, hinv⟩ := main
  refine ⟨info, heq, hlen, ?_⟩
  intro m hm
  constructor
  · intro c p hp hpm hpc
    exact ((hinv m hm).1 c p hp hpm hpc).1 ⟨p, hp, hpm⟩
  · intro p hp hpm hpc
    exact ((hinv m hm).2 p hp hpm hpc).1 ⟨p, hp, hpm⟩


/-- Soundness facts about the grouping used by the analysis: ids are bounded
by the group count, equal ids mean connected cells, and every id has a
member. -/
theorem grouping_sound {N : Nat} (board : Board N) :
    (∀ p, p < N * N →
      (group_connected_stones board).pos_to_group.getD p 0 <
        (group_connected_stones board).num_groups) ∧
    (∀ p q, p < N * N → q < N * N →
      ((group_connected_stones board).pos_to_group.getD p 0 =
        (group_connected_stones board).pos_to_group.getD q 0 ↔
        Conn board (N * N) p q)) ∧
    (∀ m, m < (group_connected_stones board).num_groups →
      ∃ p, p < N * N ∧ (group_connected_stones board).pos_to_group.getD p 0 = m) := by
  obtain ⟨hlen, hA, hequiv⟩ := groupPass_inv board
  obtain ⟨s1, s2, s3⟩ := finalize_spec hA hlen
  have s1' : (group_connected_stones board).num_groups =
      numRootsBelow (groupPass board) (N * N) := s1
  have s3' : ∀ p, p < N * N →
      (group_connected_stones board).pos_to_group.getD p 0 =
        numRootsBelow (groupPass board) (rootD (groupPass board) p) :=
    fun p hp => s3 p hp
  refine ⟨?_, ?_, ?_⟩
  · intro p hp
    rw [s3' p hp, s1']
    exact numRootsBelow_lt_of_root (lt_of_le_of_lt (rootD_le hA p) hp)
      (rootD_entry_self hA p)
  · intro p q hp hq
    rw [s3' p hp, s3' q hq]
    constructor
    · intro h
      exact (hequiv p q hp hq).mp
        (numRootsBelow_root_inj (rootD_entry_self hA p) (rootD_entry_self hA q) h)
    · intro h
      rw [(hequiv p q hp hq).mpr h]
  · intro m hm
    rw [s1'] at hm
    obtain ⟨r, hr1, hr2, hr3⟩ := exists_root_of_lt (N * N) m hm
    refine ⟨r, hr1, ?_⟩
    rw [s3' r hr1, rootD_of_entry hA hr2, hr3]

/-- The analysis always succeeds, and its group records satisfy the master
liberty/owner specification. -/
theorem analyze_spec {N : Nat} (board : Board N) :
    ∃ a, analyze board = some a ∧
      a.pos_to_group = (group_connected_stones board).pos_to_group ∧
      a.group_info.length = (group_connected_stones board).num_groups ∧
      ∀ m, m < (group_connected_stones board).num_groups →
        (∀ c p, p < N * N → a.pos_to_group.getD p 0 = m →
          board.get p = some c →
          a.group_info.getD m (.Unknown 0) =
            .PlayerGroup c (libCount board a.pos_to_group m (N * N))) ∧
        (∀ p, p < N * N → a.pos_to_group.getD p 0 = m → board.get p = none →
          a.group_info.getD m (.Unknown 0) = .EmptyStonesGroup) := by
  obtain ⟨hbound, hconn, hsurj⟩ := grouping_sound board
  have huniq : ∀ p q, p < N * N → q < N * N →
      (group_connected_stones board).pos_to_group.getD p 0 =
        (group_connected_stones board).pos_to_group.getD q 0 →
      board.get p = board.get q := by
    intro p q hp hq h
    exact conn_value_eq ((hconn p q hp hq).mp h)
  obtain ⟨info, heq, hlen, hinv⟩ := lib_fold_spec board
    (group_connected_stones board).pos_to_group
    (group_connected_stones board).num_groups hbound huniq
  refine ⟨⟨(group_connected_stones board).pos_to_group, info⟩, ?_, rfl, hlen, hinv⟩
  show (match liberties_and_owners board (group_connected_stones board).pos_to_group
      (group_connected_stones board).num_groups with
    | some i => some (⟨(group_connected_stones board).pos_to_group, i⟩ : Analysis N)
    | none => none) = _
  rw [heq]

/-- C10: on every board — reachable by play or not — `Analysis::analyze`
completes without panicking: the owner-consistency assertion never fires
(modelled by the analysis returning a value rather than `none`), and no
group record is left in the `Unknown` state. -/
theorem claim_C10 {N : Nat} (board : Board N) :
    ∃ a, analyze board = some a ∧
      ∀ m, m < a.group_info.length →
        ∀ l, a.group_info.getD m (.Unknown 0) ≠ .Unknown l := by
  obtain ⟨hbound, hconn, hsurj⟩ := grouping_sound board
  obtain ⟨a, ha, hpg, hlen, hinv⟩ := analyze_spec board
  refine ⟨a, ha, ?_⟩
  intro m hm l
  rw [hlen] at hm
  obtain ⟨p, hp, hpm⟩ := hsurj m hm
  cases hc : board.get p with
  | some c =>
    rw [(hinv m hm).1 c p hp (by rw [hpg]; exact hpm) hc]
    intro hcon
    exact GroupInfo.noConfusion hcon
  | none =>
    rw [(hinv m hm).2 p hp (by rw [hpg]; exact hpm) hc]
    intro hcon
    exact GroupInfo.noConfusion hcon

theorem libCount_eq_adjLibCount {N : Nat} (board : Board N) (gids : List Nat)
    (m : Nat)
    (hocc : ∃ p, p < N * N ∧ gids.getD p 0 = m ∧ board.get p ≠ none)
    (huniq : ∀ p q, p < N * N → q < N * N → gids.getD p 0 = gids.getD q 0 →
      board.get p = board.get q) :
    libCount board gids m (N * N) = adjLibCount board gids m := by
  obtain ⟨p0, hp0, hpm0, hocc0⟩ := hocc
  unfold libCount adjLibCount
  congr 1
  apply List.filter_congr
  intro e he
  have helt : e < N * N := List.mem_range.mp he
  by_cases hemp : board.get e = none
  · rw [decide_eq_true hemp, Bool.true_and, Bool.true_and]
    have hnotown : ¬(m = gids.getD e 0) := by
      intro hc
      have := huniq p0 e hp0 helt (by rw [hpm0, hc])
      rw [hemp] at this
      exact hocc0 this
    by_cases hmem : m ∈ libertySet (N := N) gids e
    · rcases mem_libertySet.mp hmem with hc | ⟨n, hn, hgn⟩
      · exact absurd hc hnotown
      · rw [decide_eq_true hmem]
        have : (neighborsOf N e).any (fun n => decide (gids.getD n 0 = m)) = true := by
          rw [List.any_eq_true]
          exact ⟨n, hn, decide_eq_true hgn⟩
        rw [this]
    · rw [decide_eq_false hmem]
      have : (neighborsOf N e).any (fun n => decide (gids.getD n 0 = m)) = false := by
        rw [List.any_eq_false]
        intro n hn
        simp only [decide_eq_true_eq]
        intro hgn
        exact hmem (mem_libertySet.mpr (Or.inr ⟨n, hn, hgn⟩))
      rw [this]
  · simp [hemp]

/-- C3: for every board, every group recorded by the analysis as a player
group carries a liberty count equal to the number of distinct empty cells
4-adjacent to at least one cell of the group. -/
theorem claim_C3 {N : Nat} (board : Board N) (a : Analysis N) (m : Nat)
    (c : Player) (L : Nat) (ha : analyze board = some a)
    (hm : a.group_info.getD m (.Unknown 0) = .PlayerGroup c L) :
    L = adjLibCount board a.pos_to_group m := by
  obtain ⟨hbound, hconn, hsurj⟩ := grouping_sound board
  obtain ⟨a2, ha2, hpg, hlen, hinv⟩ := analyze_spec board
  rw [ha] at ha2
  obtain rfl : a = a2 := Option.some.inj ha2
  have huniq : ∀ p q, p < N * N → q < N * N →
      a.pos_to_group.getD p 0 = a.pos_to_group.getD q 0 →
      board.get p = board.get q := by
    intro p q hp hq h
    rw [hpg] at h
    exact conn_value_eq ((hconn p q hp hq).mp h)
  have hmlt : m < (group_connected_stones board).num_groups := by
    by_contra hc
    have : m ≥ a.group_info.length := by omega
    rw [List.getD_eq_getElem?_getD, List.getElem?_eq_none (by omega)] at hm
    exact GroupInfo.noConfusion hm
  obtain ⟨p, hp, hpm⟩ := hsurj m hmlt
  have hpm' : a.pos_to_group.getD p 0 = m := by rw [hpg]; exact hpm
  cases hc : board.get p with
  | none =>
    rw [(hinv m hmlt).2 p hp hpm' hc] at hm
    exact GroupInfo.noConfusion hm
  | some c2 =>
    rw [(hinv m hmlt).1 c2 p hp hpm' hc] at hm
    have hL : L = libCount board a.pos_to_group m (N * N) :=
      (GroupInfo.PlayerGroup.inj hm.symm).2
    rw [hL]
    exact libCount_eq_adjLibCount board a.pos_to_group m
      ⟨p, hp, hpm', by rw [hc]; exact fun hcc => Option.noConfusion hcc⟩ huniq


set_option maxRecDepth 100000 in
/-- Witness for C3 at a concrete input: the corner stone on `c3Board` is
recorded with liberty count 2, which equals its count of adjacent empties. -/
theorem claim_C3_witness :
    ∃ a, analyze c3Board = some a ∧
      a.group_info.getD 0 (.Unknown 0) = .PlayerGroup .Black 2 ∧
      2 = adjLibCount c3Board a.pos_to_group 0 := by
  refine ⟨⟨[0, 1, 1, 1, 1, 1, 1, 1, 1], [.PlayerGroup .Black 2, .EmptyStonesGroup]⟩,
    by decide, by decide, ?_⟩
  exact claim_C3 c3Board _ 0 .Black 2 (by decide) (by decide)


/-! Effect of the capture routines on the game state, toward C6. -/

theorem Game.addCaptured_board {N : Nat} (game : Game N) (p : Player) (n : Nat) :
    (game.addCaptured p n).board = game.board := by
  cases p <;> rfl

theorem Game.addCaptured_analysis {N : Nat} (game : Game N) (p : Player) (n : Nat) :
    (game.addCaptured p n).analysis = game.analysis := by
  cases p <;> rfl

theorem Game.addCaptured_current {N : Nat} (game : Game N) (p : Player) (n : Nat) :
    (game.addCaptured p n).current_player = game.current_player := by
  cases p <;> rfl

theorem Player.other_other (p : Player) : p.other_player.other_player = p := by
  cases p <;> rfl

theorem Player.eq_other_of_ne {c p : Player} (h : c ≠ p) : c = p.other_player := by
  cases c <;> cases p <;> first | rfl | exact absurd rfl h

/-- Cell-level effect of `_capture_group`: positions of the captured group
are emptied, all others are untouched. -/
theorem captureGroup_fold_get {N : Nat} (a : Analysis N) (g : Nat) :
    ∀ (k : Nat), k ≤ N * N → ∀ (b0 : Board N) (c0 : Nat) (q : Nat),
      (((List.range k).foldl
          (fun st pos => if a.group_at pos = g then (st.1.set pos none, st.2 + 1) else st)
          (b0, c0)).1).get q =
        if a.group_at q = g ∧ q < k then none else b0.get q := by
  intro k
  induction k with
  | zero =>
    intro _ b0 c0 q
    have hc : ¬(a.group_at q = g ∧ q < 0) := by omega
    rw [if_neg hc, List.range_zero, List.foldl_nil]
  | succ k ih =>
    intro hk b0 c0 q
    rw [List.range_succ, List.foldl_append, List.foldl_cons, List.foldl_nil]
    by_cases hg : a.group_at k = g
    · rw [if_pos hg]
      by_cases hqk : q = k
      · have hklt : k < N * N := by omega
        rw [hqk, Board.get_set_self _ _ _ hklt]
        have hc : a.group_at k = g ∧ k < k + 1 := ⟨hg, by omega⟩
        rw [if_pos hc]
      · rw [Board.get_set_ne _ _ hqk, ih (by omega) b0 c0 q]
        by_cases hq : a.group_at q = g ∧ q < k
        · rw [if_pos hq, if_pos ⟨hq.1, by omega⟩]
        · have hq' : ¬(a.group_at q = g ∧ q < k + 1) := by
            intro hc
            exact hq ⟨hc.1, by omega⟩
          rw [if_neg hq, if_neg hq']
    · rw [if_neg hg, ih (by omega) b0 c0 q]
      by_cases hq : a.group_at q = g ∧ q < k
      · rw [if_pos hq, if_pos ⟨hq.1, by omega⟩]
      · have hq' : ¬(a.group_at q = g ∧ q < k + 1) := by
          intro hc
          rcases Nat.lt_succ_iff_lt_or_eq.mp hc.2 with h | h
          · exact hq ⟨hc.1, h⟩
          · subst h
            exact hg hc.1
        rw [if_neg hq, if_neg hq']

theorem captureGroup_get {N : Nat} (a : Analysis N) (g : Nat) (board : Board N)
    (q : Nat) :
    (captureGroup a g board).1.get q =
      if a.group_at q = g ∧ q < N * N then none else board.get q :=
  captureGroup_fold_get a g (N * N) (Nat.le_refl _) board 0 q

/-- State-level effect of `_player_takes_prisoners`: the analysis and side to
move are untouched and exactly the cells of the listed zero-liberty opponent
groups are emptied. -/
theorem ptp_spec {N : Nat} (gm : Game N) (player : Player) :
    (gm.player_takes_prisoners player).analysis = gm.analysis ∧
    (gm.player_takes_prisoners player).current_player = gm.current_player ∧
    ∀ q, (gm.player_takes_prisoners player).board.get q =
      if gm.analysis.group_at q ∈ groupsToCapture gm.analysis player.other_player ∧
          q < N * N
      then none else gm.board.get q := by
  have main : ∀ (L : List Nat) (g0 : Game N),
      (L.foldl (fun gm g =>
        let bn := captureGroup gm.analysis g gm.board
        Game.addCaptured { gm with board := bn.1 } player bn.2) g0).analysis =
          g0.analysis ∧
      (L.foldl (fun gm g =>
        let bn := captureGroup gm.analysis g gm.board
        Game.addCaptured { gm with board := bn.1 } player bn.2) g0).current_player =
          g0.current_player ∧
      ∀ q, (L.foldl (fun gm g =>
        let bn := captureGroup gm.analysis g gm.board
        Game.addCaptured { gm with board := bn.1 } player bn.2) g0).board.get q =
          if g0.analysis.group_at q ∈ L ∧ q < N * N then none else g0.board.get q := by
    intro L
    induction L with
    | nil =>
      intro g0
      refine ⟨rfl, rfl, fun q => ?_⟩
      have hc : ¬(g0.analysis.group_at q ∈ ([] : List Nat) ∧ q < N * N) := by
        rintro ⟨hm, -⟩
        exact List.not_mem_nil _ hm
      rw [if_neg hc]
      rfl
    | cons g L ih =>
      intro g0
      rw [List.foldl_cons]
      obtain ⟨ihA, ihC, ihB⟩ := ih (Game.addCaptured
        { g0 with board := (captureGroup g0.analysis g g0.board).1 } player
        (captureGroup g0.analysis g g0.board).2)
      refine ⟨by rw [ihA, Game.addCaptured_analysis], by rw [ihC, Game.addCaptured_current],
        fun q => ?_⟩
      rw [ihB q, Game.addCaptured_analysis, Game.addCaptured_board]
      show (if g0.analysis.group_at q ∈ L ∧ q < N * N then none
        else (captureGroup g0.analysis g g0.board).1.get q) = _
      by_cases hq : q < N * N
      · by_cases hmem : g0.analysis.group_at q ∈ L
        · rw [if_pos ⟨hmem, hq⟩, if_pos ⟨List.mem_cons_of_mem g hmem, hq⟩]
        · rw [if_neg (fun hc => hmem hc.1), captureGroup_get]
          by_cases hg : g0.analysis.group_at q = g
          · rw [if_pos ⟨hg, hq⟩, if_pos ⟨by rw [hg]; exact List.mem_cons_self g L, hq⟩]
          · have h1 : ¬(g0.analysis.group_at q = g ∧ q < N * N) := fun hc => hg hc.1
            have h2 : ¬(g0.analysis.group_at q ∈ g :: L ∧ q < N * N) := by
              rintro ⟨hc, -⟩
              rcases List.mem_cons.mp hc with hc | hc
              · exact hg hc
              · exact hmem hc
            rw [if_neg h1, if_neg h2]
      · have h1 : ¬(g0.analysis.group_at q ∈ L ∧ q < N * N) := fun hc => hq hc.2
        have h2 : ¬(g0.analysis.group_at q ∈ g :: L ∧ q < N * N) := fun hc => hq hc.2
        have h3 : ¬(g0.analysis.group_at q = g ∧ q < N * N) := fun hc => hq hc.2
        rw [if_neg h1, captureGroup_get, if_neg h3, if_neg h2]
  exact main (groupsToCapture gm.analysis player.other_player) gm



/-- Membership in the capture list of `_player_takes_prisoners`: exactly the
in-range group ids recorded as zero-liberty groups of the opponent. -/
theorem mem_groupsToCapture {N : Nat} {a : Analysis N} {opp : Player} {m : Nat} :
    m ∈ groupsToCapture a opp ↔
      m < a.group_info.length ∧
        a.group_info.getD m (.Unknown 0) = .PlayerGroup opp 0 := by
  unfold groupsToCapture
  rw [List.mem_filter, List.mem_range]
  constructor
  · rintro ⟨hm, hq⟩
    refine ⟨hm, ?_⟩
    cases hinfo : a.group_info.getD m (.Unknown 0) with
    | Unknown l => rw [hinfo] at hq; exact absurd hq (by simp)
    | EmptyStonesGroup => rw [hinfo] at hq; exact absurd hq (by simp)
    | PlayerGroup o l =>
      rw [hinfo] at hq
      simp only [Bool.and_eq_true, decide_eq_true_eq] at hq
      rw [hq.1, hq.2]
  · rintro ⟨hm, hinfo⟩
    refine ⟨hm, ?_⟩
    rw [hinfo]
    simp

/-- Connectivity transfers to a second board that agrees with the first on
every cell connected to the left endpoint. -/
theorem conn_preserve {N : Nat} {b b2 : Board N} {k : Nat} :
    ∀ {p q : Nat}, Conn b k p q →
      (∀ z, Conn b k p z → b2.get z = b.get z) → Conn b2 k p q := by
  intro p q h
  induction h with
  | edge hp hq hadj hval =>
    rename_i p q
    intro hloc
    have h1 : b2.get p = b.get p := hloc p (.refl p)
    have h2 : b2.get q = b.get q := hloc q (.edge hp hq hadj hval)
    exact .edge hp hq hadj (by rw [h1, h2, hval])
  | refl p =>
    intro _
    exact .refl p
  | symm h ih =>
    rename_i p q
    intro hloc
    exact .symm (ih (fun z hz => hloc z (.trans (.symm h) hz)))
  | trans h1 h2 ih1 ih2 =>
    rename_i p q r
    intro hloc
    exact .trans (ih1 hloc) (ih2 (fun z hz => hloc z (.trans h1 hz)))

/-- A nonzero liberty count exhibits an empty cell handing the group a
liberty. -/
theorem exists_of_libCount_pos {N : Nat} {board : Board N} {gids : List Nat}
    {m : Nat} (h : libCount board gids m (N * N) ≠ 0) :
    ∃ e, e < N * N ∧ board.get e = none ∧ m ∈ libertySet (N := N) gids e := by
  unfold libCount at h
  cases hf : (List.range (N * N)).filter (fun e =>
      decide (board.get e = none) && decide (m ∈ libertySet (N := N) gids e)) with
  | nil => rw [hf] at h; exact absurd rfl h
  | cons e t =>
    have he : e ∈ (List.range (N * N)).filter (fun e =>
        decide (board.get e = none) && decide (m ∈ libertySet (N := N) gids e)) := by
      rw [hf]
      exact List.mem_cons_self e t
    obtain ⟨hr, hq⟩ := List.mem_filter.mp he
    simp only [Bool.and_eq_true, decide_eq_true_eq] at hq
    exact ⟨e, List.mem_range.mp hr, hq.1, hq.2⟩

/-- Neighbour-list membership is 4-adjacency. -/
theorem adjacent_of_mem_neighborsOf {N e n : Nat} (h : n ∈ neighborsOf N e) :
    adjacentP N e n := by
  unfold neighborsOf at h
  simp only [List.mem_append, mem_option_toList] at h
  rcases h with ((h | h) | h) | h
  · exact Or.inl h
  · exact Or.inr (Or.inr (Or.inl h))
  · exact Or.inr (Or.inl h)
  · exact Or.inr (Or.inr (Or.inr h))

/-- `_take_prisoners`, given that the refreshed liberty scan succeeds:
capture the opponent, refresh, capture the mover. -/
theorem take_prisoners_spec {N : Nat} (gm : Game N) (info2 : List GroupInfo)
    (hlo : liberties_and_owners
        (gm.player_takes_prisoners gm.current_player).board
        gm.analysis.pos_to_group gm.analysis.group_info.length = some info2) :
    gm.take_prisoners = some
      (({ gm.player_takes_prisoners gm.current_player with
          analysis := ⟨gm.analysis.pos_to_group, info2⟩ } :
            Game N).player_takes_prisoners gm.current_player.other_player) := by
  unfold Game.take_prisoners Analysis.update_group_info
  show (match (match liberties_and_owners
        (gm.player_takes_prisoners gm.current_player).board
        (gm.player_takes_prisoners gm.current_player).analysis.pos_to_group
        (gm.player_takes_prisoners gm.current_player).analysis.group_info.length with
      | some info => some
          (⟨(gm.player_takes_prisoners gm.current_player).analysis.pos_to_group,
            info⟩ : Analysis N)
      | none => none) with
    | none => none
    | some a =>
        some (({ gm.player_takes_prisoners gm.current_player with analysis := a } :
          Game N).player_takes_prisoners gm.current_player.other_player)) = _
  rw [(ptp_spec gm gm.current_player).1, hlo]



/-- `place_stone` on an empty cell, given that the refreshed liberty scan
succeeds: the ok result and the final state after both capture sweeps. -/
theorem place_stone_ok_spec {N : Nat} (game : Game N) (pos : Nat) {b1 : Board N}
    {a1 : Analysis N} {info2 : List GroupInfo} {res : Game N}
    (hse : game.board.set_if_empty pos game.current_player = (.ok (), b1))
    (ha1 : analyze b1 = some a1)
    (hlo : liberties_and_owners
        (({game with board := b1, analysis := a1} :
          Game N).player_takes_prisoners game.current_player).board
        a1.pos_to_group a1.group_info.length = some info2)
    (hres : res = { (({ ({game with board := b1, analysis := a1} :
          Game N).player_takes_prisoners game.current_player with
          analysis := (⟨a1.pos_to_group, info2⟩ : Analysis N) } :
            Game N).player_takes_prisoners game.current_player.other_player) with
        current_player := ((({ ({game with board := b1, analysis := a1} :
          Game N).player_takes_prisoners game.current_player with
          analysis := (⟨a1.pos_to_group, info2⟩ : Analysis N) } :
            Game N).player_takes_prisoners
              game.current_player.other_player).current_player).other_player }) :
    game.place_stone pos = some (.ok (), res) := by
  subst hres
  unfold Game.place_stone
  rw [hse]
  show ((match analyze b1 with
    | none => none
    | some a =>
      match Game.take_prisoners { game with board := b1, analysis := a } with
      | none => none
      | some g2 =>
        some (.ok (), { g2 with current_player := g2.current_player.other_player })) :
      Option (Except PlaceStoneError Unit × Game N)) = _
  rw [ha1]
  show ((match Game.take_prisoners { game with board := b1, analysis := a1 } with
    | none => none
    | some g2 =>
      some (.ok (), { g2 with current_player := g2.current_player.other_player })) :
      Option (Except PlaceStoneError Unit × Game N)) = _
  rw [take_prisoners_spec _ info2 hlo]

/-- Core capture-protocol safety argument at the board level: `b1` is the
board right after placement, `b2` the board after the opponent sweep keyed by
`info1`, `b3` the board after the own-group sweep keyed by the refreshed
`info2`; every stone surviving on `b3` is connected to a stone with an
adjacent empty cell. -/
theorem c6_main {N : Nat} (b1 b2 b3 : Board N) (gids : List Nat) (G : Nat)
    (info1 info2 : List GroupInfo) (cp : Player)
    (hbound : ∀ p, p < N * N → gids.getD p 0 < G)
    (hconn : ∀ p q, p < N * N → q < N * N →
      (gids.getD p 0 = gids.getD q 0 ↔ Conn b1 (N * N) p q))
    (hlen1 : info1.length = G)
    (hinv1 : ∀ m, m < G → ∀ c p, p < N * N → gids.getD p 0 = m →
      b1.get p = some c →
      info1.getD m (.Unknown 0) = .PlayerGroup c (libCount b1 gids m (N * N)))
    (hlen2 : info2.length = G)
    (hinv2 : ∀ m, m < G → ∀ c p, p < N * N → gids.getD p 0 = m →
      b2.get p = some c →
      info2.getD m (.Unknown 0) = .PlayerGroup c (libCount b2 gids m (N * N)))
    (hB2 : ∀ q, b2.get q =
      if gids.getD q 0 ∈ groupsToCapture (⟨gids, info1⟩ : Analysis N)
          cp.other_player ∧ q < N * N
      then none else b1.get q)
    (hB3 : ∀ q, b3.get q =
      if gids.getD q 0 ∈ groupsToCapture (⟨gids, info2⟩ : Analysis N) cp ∧
          q < N * N
      then none else b2.get q) :
    ∀ x, x < N * N → b3.get x ≠ none →
      ∃ m e, Conn b3 (N * N) x m ∧ e < N * N ∧ b3.get e = none ∧
        adjacentP N e m := by
  intro x hx hocc
  have hc3 : ¬(gids.getD x 0 ∈ groupsToCapture (⟨gids, info2⟩ : Analysis N) cp ∧
      x < N * N) := by
    intro hcc
    exact hocc (by rw [hB3 x, if_pos hcc])
  have hnotK2 : gids.getD x 0 ∉ groupsToCapture (⟨gids, info2⟩ : Analysis N) cp :=
    fun hm => hc3 ⟨hm, hx⟩
  have h32 : b3.get x = b2.get x := by rw [hB3 x, if_neg hc3]
  have hocc2 : b2.get x ≠ none := by rw [← h32]; exact hocc
  have hc1 : ¬(gids.getD x 0 ∈ groupsToCapture (⟨gids, info1⟩ : Analysis N)
      cp.other_player ∧ x < N * N) := by
    intro hcc
    exact hocc2 (by rw [hB2 x, if_pos hcc])
  have hnotK1 : gids.getD x 0 ∉ groupsToCapture (⟨gids, info1⟩ : Analysis N)
      cp.other_player := fun hm => hc1 ⟨hm, hx⟩
  have h21 : b2.get x = b1.get x := by rw [hB2 x, if_neg hc1]
  have hocc1 : b1.get x ≠ none := by rw [← h21]; exact hocc2
  obtain ⟨c, hcv⟩ : ∃ c, b1.get x = some c := by
    cases hcv2 : b1.get x with
    | none => exact absurd hcv2 hocc1
    | some c => exact ⟨c, rfl⟩
  have huniq2 : ∀ p q, p < N * N → q < N * N → gids.getD p 0 = gids.getD q 0 →
      b2.get p = b2.get q := by
    intro p q hp hq hpq
    have hval : b1.get p = b1.get q := conn_value_eq ((hconn p q hp hq).mp hpq)
    rw [hB2 p, hB2 q, hpq, hval]
    by_cases hm : gids.getD q 0 ∈ groupsToCapture (⟨gids, info1⟩ : Analysis N)
        cp.other_player
    · rw [if_pos (⟨hm, hp⟩ : _ ∧ _), if_pos (⟨hm, hq⟩ : _ ∧ _)]
    · rw [if_neg (fun hcc => hm hcc.1), if_neg (fun hcc => hm hcc.1)]
  have hclass : ∀ z, z < N * N → gids.getD z 0 = gids.getD x 0 →
      b3.get z = b1.get z := by
    intro z hz hzx
    have hz3 : ¬(gids.getD z 0 ∈ groupsToCapture (⟨gids, info2⟩ : Analysis N) cp ∧
        z < N * N) := by
      rintro ⟨hm, -⟩
      rw [hzx] at hm
      exact hnotK2 hm
    have hz1 : ¬(gids.getD z 0 ∈ groupsToCapture (⟨gids, info1⟩ : Analysis N)
        cp.other_player ∧ z < N * N) := by
      rintro ⟨hm, -⟩
      rw [hzx] at hm
      exact hnotK1 hm
    rw [hB3 z, if_neg hz3, hB2 z, if_neg hz1]
  have htrans : ∀ m, Conn b1 (N * N) x m → Conn b3 (N * N) x m := by
    intro m hm
    refine conn_preserve hm ?_
    intro z hz
    by_cases hzx : z = x
    · subst hzx
      exact hclass z hx rfl
    · have hzlt := (conn_lt_of_ne hz (fun hxz => hzx hxz.symm)).2
      exact hclass z hzlt ((hconn x z hx hzlt).mpr hz).symm
  have hgid : gids.getD x 0 < G := hbound x hx
  have hdone : ∀ e, e < N * N → b2.get e = none →
      gids.getD x 0 ∈ libertySet (N := N) gids e →
      ∃ m e2, Conn b3 (N * N) x m ∧ e2 < N * N ∧ b3.get e2 = none ∧
        adjacentP N e2 m := by
    intro e he hee hmem
    rcases mem_libertySet.mp hmem with hself | ⟨n, hn, hgn⟩
    · exfalso
      have hvv := huniq2 e x he hx hself.symm
      rw [hee, h21, hcv] at hvv
      exact Option.noConfusion hvv
    · have hnlt : n < N * N := neighborsOf_lt he hn
      have hconnxn : Conn b1 (N * N) x n := (hconn x n hx hnlt).mp hgn.symm
      refine ⟨n, e, htrans n hconnxn, he, ?_, adjacent_of_mem_neighborsOf hn⟩
      rw [hB3 e]
      split
      · rfl
      · exact hee
  by_cases hccp : c = cp
  · have hb2x : b2.get x = some cp := by rw [h21, hcv, hccp]
    have hinfo2 := hinv2 _ hgid cp x hx rfl hb2x
    have hne0 : libCount b2 gids (gids.getD x 0) (N * N) ≠ 0 := by
      intro h0
      apply hnotK2
      rw [mem_groupsToCapture]
      constructor
      · show gids.getD x 0 < info2.length
        rw [hlen2]
        exact hgid
      · show info2.getD (gids.getD x 0) (.Unknown 0) = .PlayerGroup cp 0
        rw [hinfo2, h0]
    obtain ⟨e, he, hee, hmem⟩ := exists_of_libCount_pos hne0
    exact hdone e he hee hmem
  · have hcopp : c = cp.other_player := Player.eq_other_of_ne hccp
    have hinfo1 := hinv1 _ hgid c x hx rfl hcv
    have hne0 : libCount b1 gids (gids.getD x 0) (N * N) ≠ 0 := by
      intro h0
      apply hnotK1
      rw [mem_groupsToCapture]
      constructor
      · show gids.getD x 0 < info1.length
        rw [hlen1]
        exact hgid
      · show info1.getD (gids.getD x 0) (.Unknown 0) =
          .PlayerGroup cp.other_player 0
        rw [hinfo1, h0, hcopp]
    obtain ⟨e, he, hee1, hmem⟩ := exists_of_libCount_pos hne0
    have hee2 : b2.get e = none := by
      rw [hB2 e]
      split
      · rfl
      · exact hee1
    exact hdone e he hee2 hmem



/-- Characterisation of a successful `place_stone`: the side to move flips,
and the final board is the placement board `b1` after the two capture
sweeps, with sound grouping and liberty data for both sweeps. -/
theorem place_stone_ok_result {N : Nat} (game : Game N) (pos : Nat) (gf : Game N)
    (b1 : Board N)
    (hse : game.board.set_if_empty pos game.current_player = (.ok (), b1))
    (h : game.place_stone pos = some (.ok (), gf)) :
    ∃ (gids : List Nat) (G : Nat) (info1 info2 : List GroupInfo) (b2 : Board N),
      gf.current_player = game.current_player.other_player ∧
      (∀ p, p < N * N → gids.getD p 0 < G) ∧
      (∀ p q, p < N * N → q < N * N →
        (gids.getD p 0 = gids.getD q 0 ↔ Conn b1 (N * N) p q)) ∧
      info1.length = G ∧
      (∀ m, m < G → ∀ c p, p < N * N → gids.getD p 0 = m → b1.get p = some c →
        info1.getD m (.Unknown 0) = .PlayerGroup c (libCount b1 gids m (N * N))) ∧
      info2.length = G ∧
      (∀ m, m < G → ∀ c p, p < N * N → gids.getD p 0 = m → b2.get p = some c →
        info2.getD m (.Unknown 0) = .PlayerGroup c (libCount b2 gids m (N * N))) ∧
      (∀ q, b2.get q =
        if gids.getD q 0 ∈ groupsToCapture (⟨gids, info1⟩ : Analysis N)
            game.current_player.other_player ∧ q < N * N
        then none else b1.get q) ∧
      (∀ q, gf.board.get q =
        if gids.getD q 0 ∈ groupsToCapture (⟨gids, info2⟩ : Analysis N)
            game.current_player ∧ q < N * N
        then none else b2.get q) := by
  obtain ⟨a1, ha1, hpg1, hlen1, hinv1all⟩ := analyze_spec b1
  obtain ⟨hbound0, hconn0, hsurj0⟩ := grouping_sound b1
  have hbound1 : ∀ p, p < N * N →
      a1.pos_to_group.getD p 0 < a1.group_info.length := by
    intro p hp
    rw [hpg1, hlen1]
    exact hbound0 p hp
  have hconn1 : ∀ p q, p < N * N → q < N * N →
      (a1.pos_to_group.getD p 0 = a1.pos_to_group.getD q 0 ↔
        Conn b1 (N * N) p q) := by
    intro p q hp hq
    rw [hpg1]
    exact hconn0 p q hp hq
  have hinv1 : ∀ m, m < a1.group_info.length → ∀ c p, p < N * N →
      a1.pos_to_group.getD p 0 = m → b1.get p = some c →
      a1.group_info.getD m (.Unknown 0) =
        .PlayerGroup c (libCount b1 a1.pos_to_group m (N * N)) := by
    intro m hm
    exact (hinv1all m (by rw [← hlen1]; exact hm)).1
  have hB2 : ∀ q, (({game with board := b1, analysis := a1} :
      Game N).player_takes_prisoners game.current_player).board.get q =
      if a1.pos_to_group.getD q 0 ∈
          groupsToCapture (⟨a1.pos_to_group, a1.group_info⟩ : Analysis N)
            game.current_player.other_player ∧ q < N * N
      then none else b1.get q :=
    (ptp_spec ({game with board := b1, analysis := a1} : Game N)
      game.current_player).2.2
  have huniq2 : ∀ p q, p < N * N → q < N * N →
      a1.pos_to_group.getD p 0 = a1.pos_to_group.getD q 0 →
      (({game with board := b1, analysis := a1} :
        Game N).player_takes_prisoners game.current_player).board.get p =
      (({game with board := b1, analysis := a1} :
        Game N).player_takes_prisoners game.current_player).board.get q := by
    intro p q hp hq hpq
    have hval : b1.get p = b1.get q := conn_value_eq ((hconn1 p q hp hq).mp hpq)
    rw [hB2 p, hB2 q, hpq, hval]
    by_cases hm : a1.pos_to_group.getD q 0 ∈
        groupsToCapture (⟨a1.pos_to_group, a1.group_info⟩ : Analysis N)
          game.current_player.other_player
    · rw [if_pos (⟨hm, hp⟩ : _ ∧ _), if_pos (⟨hm, hq⟩ : _ ∧ _)]
    · rw [if_neg (fun hcc => hm hcc.1), if_neg (fun hcc => hm hcc.1)]
  obtain ⟨info2, hlo2, hlen2, hinv2all⟩ := lib_fold_spec
    (({game with board := b1, analysis := a1} :
      Game N).player_takes_prisoners game.current_player).board
    a1.pos_to_group a1.group_info.length hbound1 huniq2
  have hinv2 : ∀ m, m < a1.group_info.length → ∀ c p, p < N * N →
      a1.pos_to_group.getD p 0 = m →
      (({game with board := b1, analysis := a1} :
        Game N).player_takes_prisoners game.current_player).board.get p =
          some c →
      info2.getD m (.Unknown 0) = .PlayerGroup c
        (libCount (({game with board := b1, analysis := a1} :
          Game N).player_takes_prisoners game.current_player).board
          a1.pos_to_group m (N * N)) :=
    fun m hm => (hinv2all m hm).1
  have hps := place_stone_ok_spec game pos hse ha1 hlo2 rfl
  rw [hps] at h
  injection h with h1
  injection h1 with h2 h3
  have hB3 : ∀ q, gf.board.get q =
      if a1.pos_to_group.getD q 0 ∈
          groupsToCapture (⟨a1.pos_to_group, info2⟩ : Analysis N)
            game.current_player.other_player.other_player ∧ q < N * N
      then none else (({game with board := b1, analysis := a1} :
        Game N).player_takes_prisoners game.current_player).board.get q := by
    rw [← h3]
    exact (ptp_spec ({ ({game with board := b1, analysis := a1} :
        Game N).player_takes_prisoners game.current_player with
        analysis := (⟨a1.pos_to_group, info2⟩ : Analysis N) } : Game N)
      game.current_player.other_player).2.2
  rw [Player.other_other] at hB3
  have hcur : gf.current_player = game.current_player.other_player := by
    rw [← h3]
    show ((({ ({game with board := b1, analysis := a1} :
        Game N).player_takes_prisoners game.current_player with
        analysis := (⟨a1.pos_to_group, info2⟩ : Analysis N) } :
          Game N).player_takes_prisoners
            game.current_player.other_player).current_player).other_player =
      game.current_player.other_player
    rw [(ptp_spec ({ ({game with board := b1, analysis := a1} :
        Game N).player_takes_prisoners game.current_player with
        analysis := (⟨a1.pos_to_group, info2⟩ : Analysis N) } : Game N)
      game.current_player.other_player).2.1]
    show ((({game with board := b1, analysis := a1} :
        Game N).player_takes_prisoners game.current_player).current_player).other_player =
      game.current_player.other_player
    rw [(ptp_spec ({game with board := b1, analysis := a1} : Game N)
      game.current_player).2.1]
  exact ⟨a1.pos_to_group, a1.group_info.length, a1.group_info, info2,
    (({game with board := b1, analysis := a1} :
      Game N).player_takes_prisoners game.current_player).board,
    hcur, hbound1, hconn1, rfl, hinv1, hlen2, hinv2, hB2, hB3⟩

/-- C6: whenever `place_stone` returns ok — after the capture protocol has
captured the opponent's and then the mover's zero-liberty groups — every
occupied cell of the resulting board belongs to a group with at least one
liberty: it is connected to a stone with a 4-adjacent empty cell. -/
theorem claim_C6 {N : Nat} (game : Game N) (pos : Nat) (gf : Game N)
    (h : game.place_stone pos = some (.ok (), gf)) :
    ∀ x, x < N * N → gf.board.get x ≠ none →
      ∃ m e, Conn gf.board (N * N) x m ∧ e < N * N ∧
        gf.board.get e = none ∧ adjacentP N e m := by
  cases hse : game.board.set_if_empty pos game.current_player with
  | mk r b1 =>
  cases r with
  | error e0 =>
    exfalso
    have herr : game.place_stone pos = some (.error e0, game) := by
      unfold Game.place_stone
      rw [hse]
    rw [herr] at h
    injection h with h1
    injection h1 with h2 h3
    exact Except.noConfusion h2
  | ok u =>
    cases u
    obtain ⟨gids, G, info1, info2, b2, hcur, hbound, hconn, hlen1, hinv1, hlen2,
      hinv2, hB2, hB3⟩ := place_stone_ok_result game pos gf b1 hse h
    exact c6_main b1 b2 gf.board gids G info1 info2 game.current_player hbound
      hconn hlen1 hinv1 hlen2 hinv2 hB2 hB3


set_option maxRecDepth 200000 in
/-- Witness for C6 at a concrete input: Black plays the corner of an empty
3x3 board and no surviving group is libertyless. -/
theorem claim_C6_witness :
    c6Game.place_stone 0 = some (.ok (), c6After) ∧
      ∀ x, x < 3 * 3 → c6After.board.get x ≠ none →
        ∃ m e, Conn c6After.board (3 * 3) x m ∧ e < 3 * 3 ∧
          c6After.board.get e = none ∧ adjacentP 3 e m :=
  ⟨by decide, claim_C6 c6Game 0 c6After (by decide)⟩



/-- C4, amended: after an ok `place_stone` the side to move has flipped, and
the target cell holds the mover's stone unless the placement was a suicide
whose own group was immediately captured, in which case it is empty. -/
theorem claim_C4 {N : Nat} (game : Game N) (pos : Nat) (gf : Game N)
    (hpos : pos < N * N)
    (h : game.place_stone pos = some (.ok (), gf)) :
    gf.current_player = game.current_player.other_player ∧
      (gf.board.get pos = some game.current_player ∨ gf.board.get pos = none) := by
  cases hse : game.board.set_if_empty pos game.current_player with
  | mk r b1 =>
  cases r with
  | error e0 =>
    exfalso
    have herr : game.place_stone pos = some (.error e0, game) := by
      unfold Game.place_stone
      rw [hse]
    rw [herr] at h
    injection h with h1
    injection h1 with h2 h3
    exact Except.noConfusion h2
  | ok u =>
    cases u
    obtain ⟨gids, G, info1, info2, b2, hcur, hbound, hconn, hlen1, hinv1, hlen2,
      hinv2, hB2, hB3⟩ := place_stone_ok_result game pos gf b1 hse h
    refine ⟨hcur, ?_⟩
    have hb1pos : b1.get pos = some game.current_player := by
      unfold Board.set_if_empty at hse
      by_cases hoccb : game.board.cells.getD (2 * pos) false = true
      · rw [if_pos hoccb] at hse
        injection hse with he hb
        exact Except.noConfusion he
      · rw [if_neg hoccb] at hse
        injection hse with he hb
        rw [← hb]
        exact Board.get_set_self game.board pos (some game.current_player) hpos
    rw [hB3 pos]
    split
    · exact Or.inr rfl
    · rw [hB2 pos]
      split
      · exact Or.inr rfl
      · exact Or.inl hb1pos

set_option maxRecDepth 200000 in
/-- Witness for C4 at a concrete input: Black plays the corner of an empty
3x3 board; the side flips and the corner holds the Black stone. -/
theorem claim_C4_witness :
    (0 : Nat) < 3 * 3 ∧ c6Game.place_stone 0 = some (.ok (), c6After) ∧
      (c6After.current_player = c6Game.current_player.other_player ∧
        (c6After.board.get 0 = some c6Game.current_player ∨
          c6After.board.get 0 = none)) :=
  ⟨by decide, by decide, claim_C4 c6Game 0 c6After (by decide) (by decide)⟩



/-! The round-trip of the `Debug` rendering through `from_str`, for C8. -/

theorem trimWS_not_ws {c : Char} (rest : List Char) (hw : c.isWhitespace = false) :
    trimWS (c :: rest) = c :: rest := by
  unfold trimWS
  simp [hw]

/-- A leading unparsable non-whitespace character makes the row scan fail. -/
theorem parseRowGo_head_err {N : Nat} (y x cnt : Nat) (b : Board N) (c : Char)
    (rest : List Char) (hcnt : cnt ≠ 0) (hw : c.isWhitespace = false)
    (msg : String) (hc : parseCellChar c = .error msg) :
    parseRowGo (N := N) y x cnt b (c :: rest) = .error msg := by
  cases cnt with
  | zero => exact absurd rfl hcnt
  | succ m =>
    show (match trimWS (c :: rest) with
      | [] => (.error "Invalid input format: unexpected end of input" :
          Except String (Board N × List Char))
      | c2 :: rest2 =>
        match parseCellChar c2 with
        | .error e => .error e
        | .ok v => parseRowGo y (x + 1) m (b.set (posFromXY N x y) v) rest2) =
      .error msg
    rw [trimWS_not_ws rest hw]
    show (match parseCellChar c with
      | .error e => (.error e : Except String (Board N × List Char))
      | .ok v => parseRowGo y (x + 1) m (b.set (posFromXY N x y) v) rest) =
      .error msg
    rw [hc]

/-- A leading unparsable non-whitespace character makes the rows scan fail. -/
theorem parseRowsGo_head_err {N : Nat} (y cnt : Nat) (b : Board N) (c : Char)
    (rest : List Char) (hN : N ≠ 0) (hcnt : cnt ≠ 0) (hw : c.isWhitespace = false)
    (msg : String) (hc : parseCellChar c = .error msg) :
    parseRowsGo (N := N) y cnt b (c :: rest) = .error msg := by
  cases cnt with
  | zero => exact absurd rfl hcnt
  | succ m =>
    show (match parseRowGo (N := N) y 0 N b (c :: rest) with
      | .error e => (.error e : Except String (Board N × List Char))
      | .ok (b2, rest2) => parseRowsGo (y + 1) m b2 (trimWS rest2)) = .error msg
    rw [parseRowGo_head_err y 0 N b c rest hN hw msg hc]

/-- A leading unparsable non-whitespace character makes `from_str` fail. -/
theorem from_str_head_err {N : Nat} (input : List Char) (c : Char)
    (rest : List Char) (hin : input = c :: rest) (hN : N ≠ 0)
    (hw : c.isWhitespace = false) (msg : String)
    (hc : parseCellChar c = .error msg) :
    Board.from_str N input = .error msg := by
  subst hin
  unfold Board.from_str
  rw [parseRowsGo_head_err 0 N (Board.new N) c rest hN hN hw msg hc]



set_option maxRecDepth 100000 in
/-- Counterexample to C8 as stated: parsing the `Debug` rendering of the
empty 3x3 board does not give the board back — it is rejected outright,
because the rendering starts with the `Board(` header (and renders Black as
`●` where the parser expects `○`). -/
theorem claim_C8_counterexample :
    Board.from_str 3 (boardDebugText (Board.new 3)) =
      .error "Invalid input format: unexpected character" := by
  decide

/-- C8, amended: the textual `Debug` rendering of a board is never accepted
by `Board::from_str` on a nonempty board size — the round-trip always fails
with a parse error (the header character `B` is not a valid cell token). -/
theorem claim_C8 {N : Nat} (b : Board N) (hN : 0 < N) :
    ∃ msg, Board.from_str N (boardDebugText b) = .error msg := by
  refine ⟨"Invalid input format: unexpected character", ?_⟩
  refine from_str_head_err (boardDebugText b) 'B'
    ("oard(".toList ++ ['\n'] ++ (boardGridText b ++ (")".toList ++ ['\n'])))
    ?_ (by omega) (by decide) _ (by decide)
  show ("Board(".toList ++ ['\n']) ++ boardGridText b ++ (")".toList ++ ['\n']) = _
  rfl

/-- Witness for C8 at a concrete input. -/
theorem claim_C8_witness :
    (0 : Nat) < 3 ∧
      ∃ msg, Board.from_str 3 (boardDebugText (Board.new 3)) = .error msg :=
  ⟨by decide, claim_C8 (Board.new 3) (by decide)⟩


end GoGame
